import Mathlib

/-!
A verification development for the fastmc Minecraft wire-protocol codec
(src/fastmc/proto.py).

Modelling conventions for the shallow embedding:

- Wire bytes are modelled as List Nat; every writer only produces values
  below 256 (Python chr raises ValueError outside that range, so writers
  that can be handed out-of-range values return Option).
- Python 2 str values that are only ever treated as byte strings
  (addresses, slot NBT payloads, metadata strings) are modelled by their
  UTF-8 byte sequences, so encode/decode is the identity on the model.
- Python integers are arbitrary precision: they are modelled as Nat
  (where the source only handles non-negative values) or Int.  Bitwise
  operators map to the corresponding Nat/Int bitwise operations.
- struct.pack range errors and KeyError/ValueError raised by the source
  are modelled with Option / explicit error constructors.
- cStringIO read buffers are modelled as a byte list plus a read cursor.
-/

namespace Fastmc

/-! ### Bridging lemmas between bitwise operators and arithmetic -/

theorem and_127_eq_mod (v : Nat) : v &&& 127 = v % 128 :=
  Nat.and_pow_two_sub_one_eq_mod v 7

theorem shiftRight_7_eq_div (v : Nat) : v >>> 7 = v / 128 :=
  Nat.shiftRight_eq_div_pow v 7

theorem shiftLeft_eq_mul (v n : Nat) : v <<< n = v * 2 ^ n :=
  Nat.shiftLeft_eq v n

theorem or_128_eq_add : ∀ q < 128, q ||| 128 = q + 128 := by decide

theorem or_128_and_127 : ∀ q < 128, (q ||| 128) &&& 127 = q := by decide

theorem or_128_and_128 : ∀ q < 128, (q ||| 128) &&& 128 = 128 := by decide

theorem or_128_gt_127 : ∀ q < 128, 127 < q ||| 128 := by decide

theorem or_128_lt_256 : ∀ q < 128, q ||| 128 < 256 := by decide

theorem and_128_eq_zero : ∀ q < 128, q &&& 128 = 0 := by decide

/-! ### Varint codec (proto.py lines 93-124)

Python source:

    def read_varint(b):
        byte = b.read(1)
        if not byte:
            return None
        value = ord(byte)
        if value <= 127:
            return value
        value, shift, quantum = value & 0x7f, 7, value
        while 1:
            byte = b.read(1)
            if not byte:
                return None
            quantum = ord(byte)
            value, shift = value + ((quantum & 0x7f) << shift), shift + 7
            if not quantum & 0x80:
                break
        return value
    def write_varint(b, value):
        if value <= 127: # fast path
            b.write(chr(value))
        else:
            shifted_value = True # dummy initialized
            while shifted_value:
                shifted_value = value >> 7
                b.write(chr((value & 0x7f) | (0x80 if shifted_value else 0)))
                value = shifted_value
    def size_varint(value):
        size = 1
        while value & ~0x7f:
            size += 1
            value >>= 7
        return size

The readers work on the byte sequence at the buffer cursor; a reader
returns the decoded value together with the number of bytes it consumed,
or none where the Python code returns None (end of buffer hit).
-/

def write_varint_loop (v : Nat) : List Nat :=
  if h : v >>> 7 = 0 then [(v &&& 0x7f) ||| 0]
  else ((v &&& 0x7f) ||| 0x80) :: write_varint_loop (v >>> 7)
termination_by v
decreasing_by
  have hv : 0 < v := by
    rcases Nat.eq_zero_or_pos v with h0 | h0
    · subst h0; simp at h
    · exact h0
  rw [shiftRight_7_eq_div]
  exact Nat.div_lt_self hv (by norm_num)

def write_varint (v : Nat) : List Nat :=
  if v ≤ 127 then [v] else write_varint_loop v

def read_varint_loop : List Nat → Nat → Nat → Nat → Option (Nat × Nat)
  | [], _, _, _ => none
  | q :: rest, value, shift, consumed =>
    if q &&& 0x80 = 0 then some (value + ((q &&& 0x7f) <<< shift), consumed + 1)
    else read_varint_loop rest (value + ((q &&& 0x7f) <<< shift)) (shift + 7) (consumed + 1)

def read_varint : List Nat → Option (Nat × Nat)
  | [] => none
  | q :: rest => if q ≤ 127 then some (q, 1) else read_varint_loop rest (q &&& 0x7f) 7 1

/-- In Python, for a non-negative value the loop guard value & ~0x7f is
nonzero exactly when 128 ≤ value. -/
def size_varint (v : Nat) : Nat :=
  if h : 128 ≤ v then 1 + size_varint (v >>> 7) else 1
termination_by v
decreasing_by
  rw [shiftRight_7_eq_div]
  exact Nat.div_lt_self (by omega) (by norm_num)

theorem write_varint_loop_length (v : Nat) :
    (write_varint_loop v).length = size_varint v := by
  induction v using Nat.strong_induction_on with
  | _ v ih =>
    rw [write_varint_loop, size_varint]
    rcases Nat.lt_or_ge v 128 with hv | hv
    · have h7 : v >>> 7 = 0 := by rw [shiftRight_7_eq_div]; omega
      simp [h7, Nat.not_le.mpr hv]
    · have h7 : v >>> 7 ≠ 0 := by rw [shiftRight_7_eq_div]; omega
      have hlt : v >>> 7 < v := by
        rw [shiftRight_7_eq_div]; exact Nat.div_lt_self (by omega) (by norm_num)
      rw [dif_neg h7, dif_pos hv]
      simp [ih _ hlt]
      omega

theorem read_write_varint_loop (v : Nat) :
    ∀ acc shift c rest,
      read_varint_loop (write_varint_loop v ++ rest) acc shift c
        = some (acc + v <<< shift, c + (write_varint_loop v).length) := by
  induction v using Nat.strong_induction_on with
  | _ v ih =>
    intro acc shift c rest
    rw [write_varint_loop]
    rcases Nat.lt_or_ge v 128 with hv | hv
    · have h7 : v >>> 7 = 0 := by rw [shiftRight_7_eq_div]; omega
      have hand : v &&& 127 = v := by rw [and_127_eq_mod]; omega
      simp [h7, read_varint_loop, hand, and_128_eq_zero v hv]
    · have h7 : v >>> 7 ≠ 0 := by rw [shiftRight_7_eq_div]; omega
      have hlt : v >>> 7 < v := by
        rw [shiftRight_7_eq_div]; exact Nat.div_lt_self (by omega) (by norm_num)
      have hm : v &&& 127 = v % 128 := and_127_eq_mod v
      have hmod : v % 128 < 128 := Nat.mod_lt v (by norm_num)
      simp only [h7, List.cons_append, read_varint_loop, dite_false, dif_neg,
        List.length_cons]
      rw [hm, or_128_and_128 _ hmod]
      simp only [(by norm_num : (128 : Nat) ≠ 0), if_false]
      rw [or_128_and_127 _ hmod, ih _ hlt]
      congr 2
      · rw [shiftLeft_eq_mul, shiftLeft_eq_mul, shiftLeft_eq_mul, pow_add,
          shiftRight_7_eq_div]
        have h27 : (2 : Nat) ^ 7 = 128 := by norm_num
        rw [h27]
        have hdm := Nat.div_add_mod v 128
        nth_rewrite 3 [← hdm]
        ring
      · omega

theorem read_varint_of_write (v : Nat) (rest : List Nat) :
    read_varint (write_varint v ++ rest) = some (v, size_varint v) := by
  unfold write_varint
  rcases Nat.lt_or_ge v 128 with hv | hv
  · have h1 : size_varint v = 1 := by rw [size_varint, dif_neg (by omega : ¬128 ≤ v)]
    simp [read_varint, (by omega : v ≤ 127), h1]
  · have h127 : ¬ v ≤ 127 := by omega
    rw [if_neg h127, write_varint_loop]
    have h7 : v >>> 7 ≠ 0 := by rw [shiftRight_7_eq_div]; omega
    rw [dif_neg h7]
    have hm : v &&& 127 = v % 128 := and_127_eq_mod v
    have hmod : v % 128 < 128 := Nat.mod_lt v (by norm_num)
    simp only [List.cons_append, read_varint]
    rw [hm]
    have hgt := or_128_gt_127 _ hmod
    rw [if_neg (by omega), or_128_and_127 _ hmod, read_write_varint_loop,
      write_varint_loop_length]
    have hsz : size_varint v = 1 + size_varint (v >>> 7) := by
      rw [size_varint, dif_pos hv]
    have hfst : v % 128 + (v >>> 7) <<< 7 = v := by
      rw [shiftLeft_eq_mul, shiftRight_7_eq_div]
      have h27 : (2 : Nat) ^ 7 = 128 := by norm_num
      rw [h27]; omega
    rw [hfst, ← hsz]

theorem write_varint_length (v : Nat) : (write_varint v).length = size_varint v := by
  unfold write_varint
  rcases Nat.lt_or_ge v 128 with hv | hv
  · have h1 : size_varint v = 1 := by rw [size_varint, dif_neg (by omega : ¬128 ≤ v)]
    simp [Nat.le_of_lt_succ hv, h1]
  · rw [if_neg (by omega), write_varint_loop_length]

/-- C1: for every non-negative integer v < 2^32, reading back the bytes
produced by write_varint(v) with read_varint yields v, and the number of
bytes write_varint(v) produces equals size_varint(v). -/
theorem c1_varint_roundtrip (v : Nat) (h : v < 2 ^ 32) :
    (read_varint (write_varint v)).map Prod.fst = some v
      ∧ (write_varint v).length = size_varint v := by
  refine ⟨?_, write_varint_length v⟩
  have hr := read_varint_of_write v []
  rw [List.append_nil] at hr
  rw [hr]
  rfl

/-- Witness for C1 at the concrete input v = 300. -/
theorem c1_varint_roundtrip_witness :
    (300 : Nat) < 2 ^ 32
      ∧ ((read_varint (write_varint 300)).map Prod.fst = some 300
          ∧ (write_varint 300).length = size_varint 300) :=
  ⟨by norm_num, c1_varint_roundtrip 300 (by norm_num)⟩

/-! ### Termination model of the varint writer and size function (C10)

To reason about termination on arbitrary (possibly negative) Python
integers, write_varint and size_varint are re-embedded over Int with an
explicit fuel parameter: an execution that returns within the fuel bound
yields PyRun.ok, an uncaught ValueError (raised by chr for arguments
outside [0, 256)) yields PyRun.valueError, and running out of fuel for
every fuel bound models divergence.  Python right shift on negative
integers floors (Int.shiftRight on negSucc), and ~0x7f = -128. -/

inductive PyRun (α : Type) where
  | ok (a : α)
  | valueError
  | fuelOut
deriving DecidableEq

/-- Python chr: returns the byte for 0 ≤ v < 256 and raises ValueError
otherwise. -/
def chr_py (v : Int) : Option Nat :=
  if 0 ≤ v ∧ v < 256 then some v.toNat else none

def write_varint_int_loop : Nat → Int → PyRun (List Nat)
  | 0, _ => .fuelOut
  | fuel + 1, v =>
    let shifted := Int.shiftRight v 7
    match chr_py (Int.lor (Int.land v 0x7f) (if shifted = 0 then 0 else 0x80)) with
    | none => .valueError
    | some byte =>
      if shifted = 0 then .ok [byte]
      else
        match write_varint_int_loop fuel shifted with
        | .ok rest => .ok (byte :: rest)
        | .valueError => .valueError
        | .fuelOut => .fuelOut

def write_varint_int (fuel : Nat) (v : Int) : PyRun (List Nat) :=
  if v ≤ 127 then
    match chr_py v with
    | some byte => .ok [byte]
    | none => .valueError
  else write_varint_int_loop fuel v

def size_varint_int_loop : Nat → Int → Nat → PyRun Nat
  | 0, v, size =>
    if Int.land v (Int.lnot 0x7f) = 0 then .ok size else .fuelOut
  | fuel + 1, v, size =>
    if Int.land v (Int.lnot 0x7f) = 0 then .ok size
    else size_varint_int_loop fuel (Int.shiftRight v 7) (size + 1)

def size_varint_int (fuel : Nat) (v : Int) : PyRun Nat :=
  size_varint_int_loop fuel v 1

theorem size_varint_int_loop_neg (fuel : Nat) :
    ∀ v : Int, v < 0 → ∀ size, size_varint_int_loop fuel v size = .fuelOut := by
  induction fuel with
  | zero =>
    intro v hv size
    cases v with
    | ofNat n => exact absurd (show (n : Int) < 0 from hv) (by omega)
    | negSucc m =>
      rw [size_varint_int_loop]
      have hg : Int.land (Int.negSucc m) (Int.lnot 127) = Int.negSucc (m ||| 127) := rfl
      have hne : Int.negSucc (m ||| 127) ≠ 0 := by rw [Int.negSucc_eq]; omega
      rw [if_neg (by rw [hg]; exact hne)]
  | succ fuel ih =>
    intro v hv size
    cases v with
    | ofNat n => exact absurd (show (n : Int) < 0 from hv) (by omega)
    | negSucc m =>
      rw [size_varint_int_loop]
      have hg : Int.land (Int.negSucc m) (Int.lnot 127) = Int.negSucc (m ||| 127) := rfl
      have hne : Int.negSucc (m ||| 127) ≠ 0 := by rw [Int.negSucc_eq]; omega
      rw [if_neg (by rw [hg]; exact hne)]
      have hsh : Int.shiftRight (Int.negSucc m) 7 = Int.negSucc (m >>> 7) := rfl
      rw [hsh]
      exact ih _ (by rw [Int.negSucc_eq]; omega) _

theorem ldiff_127_eq_zero_iff (n : Nat) : Nat.ldiff n 127 = 0 ↔ n < 128 := by
  constructor
  · intro h
    have hhi : ∀ i, 7 ≤ i → n.testBit i = false := by
      intro i hi
      have ht := congrArg (fun x => Nat.testBit x i) h
      simp only [Nat.testBit_ldiff, Nat.zero_testBit] at ht
      have h127 : Nat.testBit 127 i = false := by
        have h7 : (127 : Nat) = 2 ^ 7 - 1 := by norm_num
        rw [h7, Nat.testBit_two_pow_sub_one]
        simp only [decide_eq_false_iff_not]
        omega
      simp only [h127, Bool.not_false, Bool.and_true] at ht
      exact ht
    have hn : n = n % 2 ^ 7 := by
      apply Nat.eq_of_testBit_eq
      intro i
      rw [Nat.testBit_mod_two_pow]
      by_cases hi : i < 7
      · simp [hi]
      · simp [hi, hhi i (by omega)]
    have := Nat.mod_lt n (y := 2 ^ 7) (by norm_num)
    omega
  · intro h
    apply Nat.eq_of_testBit_eq
    intro i
    simp only [Nat.testBit_ldiff, Nat.zero_testBit]
    by_cases hi : i < 7
    · have h127 : Nat.testBit 127 i = true := by
        have h7 : (127 : Nat) = 2 ^ 7 - 1 := by norm_num
        rw [h7, Nat.testBit_two_pow_sub_one]
        simpa
      simp [h127]
    · have hb : n.testBit i = false := by
        apply Nat.testBit_lt_two_pow
        calc n < 128 := h
          _ = 2 ^ 7 := by norm_num
          _ ≤ 2 ^ i := Nat.pow_le_pow_right (by norm_num) (by omega)
      simp [hb]

theorem size_varint_int_loop_nonneg (n : Nat) :
    ∀ fuel, n ≤ fuel → ∀ size,
      size_varint_int_loop fuel (Int.ofNat n) size = .ok (size + (size_varint n - 1)) := by
  induction n using Nat.strong_induction_on with
  | _ n ih =>
    intro fuel hfuel size
    have hg : Int.land (Int.ofNat n) (Int.lnot 127) = Int.ofNat (Nat.ldiff n 127) := rfl
    rcases Nat.lt_or_ge n 128 with hn | hn
    · have hz : Int.land (Int.ofNat n) (Int.lnot 127) = 0 := by
        rw [hg, (ldiff_127_eq_zero_iff n).mpr hn]; rfl
      have h1 : size_varint n = 1 := by rw [size_varint, dif_neg (by omega : ¬128 ≤ n)]
      cases fuel with
      | zero => rw [size_varint_int_loop, if_pos hz, h1]; norm_num
      | succ f => rw [size_varint_int_loop, if_pos hz, h1]; norm_num
    · have hnz : Int.land (Int.ofNat n) (Int.lnot 127) ≠ 0 := by
        rw [hg]
        intro hcon
        have hd : Nat.ldiff n 127 = 0 := Int.ofNat_eq_zero.mp hcon
        rw [ldiff_127_eq_zero_iff n] at hd
        omega
      obtain ⟨fuel', rfl⟩ : ∃ f, fuel = f + 1 := ⟨fuel - 1, by omega⟩
      rw [size_varint_int_loop, if_neg hnz]
      have hsh : Int.shiftRight (Int.ofNat n) 7 = Int.ofNat (n >>> 7) := rfl
      rw [hsh]
      have hlt : n >>> 7 < n := by
        rw [shiftRight_7_eq_div]; exact Nat.div_lt_self (by omega) (by norm_num)
      have hle : n >>> 7 ≤ fuel' := by
        rw [shiftRight_7_eq_div] at *; omega
      rw [ih _ hlt fuel' hle (size + 1)]
      have hsz : size_varint n = 1 + size_varint (n >>> 7) := by
        rw [size_varint, dif_pos hn]
      have hpos : 1 ≤ size_varint (n >>> 7) := by
        rw [size_varint]; split <;> omega
      congr 1
      omega

theorem chr_py_ofNat (k : Nat) (hk : k < 256) : chr_py (Int.ofNat k) = some k := by
  rw [chr_py, if_pos]
  · rfl
  · refine ⟨Int.ofNat_nonneg k, ?_⟩
    show (k : Int) < 256
    exact_mod_cast hk

theorem write_varint_int_loop_nonneg (n : Nat) :
    ∀ fuel, n < fuel →
      write_varint_int_loop fuel (Int.ofNat n) = .ok (write_varint_loop n) := by
  induction n using Nat.strong_induction_on with
  | _ n ih =>
    intro fuel hfuel
    obtain ⟨fuel', rfl⟩ : ∃ f, fuel = f + 1 := ⟨fuel - 1, by omega⟩
    rw [write_varint_int_loop]
    have hsh : Int.shiftRight (Int.ofNat n) 7 = Int.ofNat (n >>> 7) := rfl
    have hland : Int.land (Int.ofNat n) 127 = Int.ofNat (n &&& 127) := rfl
    have hmod : n &&& 127 < 128 := by rw [and_127_eq_mod]; exact Nat.mod_lt n (by norm_num)
    simp only [hsh, hland]
    rcases Nat.eq_zero_or_pos (n >>> 7) with h7 | h7
    · have hz : Int.ofNat (n >>> 7) = 0 := by rw [h7]; rfl
      have hlor : Int.lor (Int.ofNat (n &&& 127)) 0 = Int.ofNat ((n &&& 127) ||| 0) := rfl
      have hchr : chr_py (Int.ofNat ((n &&& 127) ||| 0)) = some ((n &&& 127) ||| 0) :=
        chr_py_ofNat _ (by rw [Nat.or_zero]; omega)
      rw [if_pos hz, hlor, hchr]
      dsimp only
      rw [if_pos hz, write_varint_loop, dif_pos h7]
    · have hnz : Int.ofNat (n >>> 7) ≠ 0 := by
        intro hcon
        have h0 : n >>> 7 = 0 := Int.ofNat_eq_zero.mp hcon
        omega
      have hlor : Int.lor (Int.ofNat (n &&& 127)) 128 = Int.ofNat ((n &&& 127) ||| 128) := rfl
      have hchr : chr_py (Int.ofNat ((n &&& 127) ||| 128)) = some ((n &&& 127) ||| 128) :=
        chr_py_ofNat _ (or_128_lt_256 _ hmod)
      rw [if_neg hnz, hlor, hchr]
      dsimp only
      rw [if_neg hnz]
      have hlt : n >>> 7 < n := by
        rw [shiftRight_7_eq_div]
        exact Nat.div_lt_self (by omega) (by norm_num)
      rw [ih _ hlt fuel' (by omega)]
      have hne7 : ¬ n >>> 7 = 0 := by omega
      conv_rhs => rw [write_varint_loop, dif_neg hne7]

/-- Counterexample to C10 as stated: at v = -1 the writer does not loop
forever; it takes the fast path (every negative value satisfies
value <= 127) and chr(-1) raises ValueError at once, even with zero loop
fuel. -/
theorem c10_counterexample :
    write_varint_int 0 (-1) = PyRun.valueError
      ∧ write_varint_int 1000 (-1) = PyRun.valueError
      ∧ PyRun.valueError ≠ (PyRun.fuelOut : PyRun (List Nat)) := by
  refine ⟨rfl, rfl, by decide⟩

/-- C10 (amended): size_varint loops forever on every negative input, and
write_varint raises ValueError immediately on every negative input (it
never reaches its loop, since negative values take the fast path); on
every non-negative input both terminate normally, agreeing with the Nat
model.  Hence v ≥ 0 is necessary and sufficient for normal termination of
both functions, but a negative input makes write_varint raise rather than
diverge. -/
theorem c10_varint_termination :
    (∀ v : Int, 0 ≤ v → ∀ extra,
        write_varint_int (v.toNat + 1 + extra) v = .ok (write_varint v.toNat)
          ∧ size_varint_int (v.toNat + 1 + extra) v = .ok (size_varint v.toNat))
      ∧ (∀ v : Int, v < 0 →
          (∀ fuel, write_varint_int fuel v = .valueError)
            ∧ (∀ fuel, size_varint_int fuel v = .fuelOut)) := by
  constructor
  · intro v hv extra
    have hofnat : Int.ofNat v.toNat = v := Int.toNat_of_nonneg hv
    constructor
    · rw [write_varint_int, write_varint]
      rcases le_or_lt v 127 with h127 | h127
      · rw [if_pos h127, if_pos (by omega : v.toNat ≤ 127)]
        rw [chr_py, if_pos ⟨hv, by omega⟩]
      · rw [if_neg (by omega), if_neg (by omega : ¬ v.toNat ≤ 127)]
        rw [← hofnat]
        exact write_varint_int_loop_nonneg v.toNat _ (by omega)
    · rw [size_varint_int, ← hofnat]
      rw [size_varint_int_loop_nonneg v.toNat _ (by omega) 1]
      have hpos : 1 ≤ size_varint v.toNat := by
        rw [size_varint]; split <;> omega
      show PyRun.ok (1 + (size_varint v.toNat - 1)) = PyRun.ok (size_varint v.toNat)
      congr 1
      omega
  · intro v hv
    constructor
    · intro fuel
      rw [write_varint_int, if_pos (by omega : v ≤ 127)]
      rw [chr_py, if_neg (by omega)]
    · intro fuel
      exact size_varint_int_loop_neg fuel v hv 1

/-- Witness for C10 at the concrete inputs v = 300 and v = -5. -/
theorem c10_varint_termination_witness :
    ((0 : Int) ≤ 300 ∧ (-5 : Int) < 0)
      ∧ write_varint_int 301 300 = .ok (write_varint 300)
      ∧ size_varint_int 301 300 = .ok (size_varint 300)
      ∧ write_varint_int 9 (-5) = .valueError
      ∧ size_varint_int 9 (-5) = .fuelOut :=
  ⟨⟨by norm_num, by norm_num⟩,
    (c10_varint_termination.1 300 (by norm_num) 0).1,
    (c10_varint_termination.1 300 (by norm_num) 0).2,
    (c10_varint_termination.2 (-5) (by norm_num)).1 9,
    (c10_varint_termination.2 (-5) (by norm_num)).2 9⟩

/-! ### Big-endian fixed-width integers (struct pack/unpack with formats
like ">Q") -/

def beBytes : Nat → Nat → List Nat
  | 0, _ => []
  | w + 1, v => beBytes w (v >>> 8) ++ [v &&& 255]

def beVal (l : List Nat) : Nat := l.foldl (fun acc b => acc * 256 + b) 0

/-- proto.py read_ulong: unpack(">Q", b.read(8)); struct raises on a short
read. -/
def read_ulong (l : List Nat) : Option (Nat × List Nat) :=
  if 8 ≤ l.length then some (beVal (l.take 8), l.drop 8) else none

/-- proto.py write_ulong: pack(">Q", value); struct raises outside
[0, 2^64). -/
def write_ulong (v : Int) : Option (List Nat) :=
  if 0 ≤ v ∧ v < 2 ^ 64 then some (beBytes 8 v.toNat) else none

/-! ### Packed position codec (proto.py lines 126, 138-152)

Python source:

    Position = namedtuple("Position", "x y z")
    def read_position_packed(b):
        p = read_ulong(b)
        def twentysix_bit_2_complement(v):
            if v & 0x2000000:
                v = v - (1 << 26)
            return v
        return Position(
            twentysix_bit_2_complement(p >> 38),
            (p >> 26) & 0xfff,
            twentysix_bit_2_complement(p & 0x3ffffff)
        )
    def write_position_packed(b, pos):
        write_ulong(b, (pos.x & 0x3ffffff) << 38 | pos.y << 26 | pos.z & 0x3ffffff)

The writer's expression parses as
((pos.x & 0x3ffffff) << 38) | (pos.y << 26) | (pos.z & 0x3ffffff):
the mask is applied first, then the shift.  A Python left shift of an
arbitrary-precision integer is exact multiplication by a power of two
(also for negative values), embedded below as multiplication since Lean
has no Int shiftLeft; & and | on possibly negative Python ints are the
two's-complement Int.land / Int.lor. -/

structure Position where
  x : Int
  y : Int
  z : Int
deriving DecidableEq

def twentysix_bit_2_complement (v : Nat) : Int :=
  if v &&& 0x2000000 ≠ 0 then (v : Int) - 2 ^ 26 else (v : Int)

def read_position_packed (l : List Nat) : Option (Position × List Nat) :=
  match read_ulong l with
  | none => none
  | some (p, rest) =>
    some (⟨twentysix_bit_2_complement (p >>> 38),
           (((p >>> 26) &&& 0xfff : Nat) : Int),
           twentysix_bit_2_complement (p &&& 0x3ffffff)⟩, rest)

def write_position_packed (pos : Position) : Option (List Nat) :=
  write_ulong (Int.lor (Int.lor (Int.land pos.x 0x3ffffff * 2 ^ 38)
    (pos.y * 2 ^ 26)) (Int.land pos.z 0x3ffffff))

/-! ### ReadBuffer (proto.py lines 47-91)

The cStringIO-backed buffer is modelled as the byte list written so far
plus the read cursor.  read(count) returns up to count bytes from the
cursor and advances the cursor by the number of bytes returned; a read
with the cursor past the end returns nothing and moves nothing.
append(data) seeks to the end, writes, and seeks back, except that when
the consumed prefix exceeds _max_size = 16384 it first shuffles the
buffer: the unread tail is moved to the start and the cursor reset to 0.
snapshot/restore expose the cursor position. -/

structure ReadBuffer where
  data : List Nat
  pos : Nat
deriving DecidableEq

def ReadBuffer.max_size : Nat := 16384

def ReadBuffer.readable (b : ReadBuffer) : List Nat := b.data.drop b.pos

def ReadBuffer.read (b : ReadBuffer) (count : Nat) : List Nat × ReadBuffer :=
  let out := (b.data.drop b.pos).take count
  (out, ⟨b.data, b.pos + out.length⟩)

/-- ReadBuffer.read with no count argument, or cStringIO.read with a
negative count: reads everything from the cursor on. -/
def ReadBuffer.readAll (b : ReadBuffer) : List Nat × ReadBuffer :=
  (b.data.drop b.pos, ⟨b.data, b.pos + (b.data.drop b.pos).length⟩)

/-- b.read(data_size) where data_size is a Python int that may be
negative. -/
def ReadBuffer.readCount (b : ReadBuffer) (count : Int) : List Nat × ReadBuffer :=
  if count < 0 then b.readAll else b.read count.toNat

def ReadBuffer.append (b : ReadBuffer) (d : List Nat) : ReadBuffer :=
  if b.pos > ReadBuffer.max_size then ⟨b.data.drop b.pos ++ d, 0⟩
  else ⟨b.data ++ d, b.pos⟩

def ReadBuffer.snapshot (b : ReadBuffer) : Nat := b.pos

def ReadBuffer.restore (b : ReadBuffer) (read_pos : Nat) : ReadBuffer :=
  ⟨b.data, read_pos⟩

/-- read_varint reading single bytes from the buffer: on success the
cursor has advanced past the consumed bytes; on a None return the reads
hit the end of the buffer, leaving the cursor at the end of the data (or
where it was, if it already pointed past the end). -/
def rb_read_varint (b : ReadBuffer) : Option Nat × ReadBuffer :=
  match read_varint (b.data.drop b.pos) with
  | some (v, k) => (some v, ⟨b.data, b.pos + k⟩)
  | none => (none, ⟨b.data, b.pos + (b.data.drop b.pos).length⟩)

/-! ### Framing layer (proto.py read_raw lines 869-904, write_packet
lines 906-925)

decompress models data.decode('zlib'), returning none where zlib raises
on corrupt input; compress models data.encode('zlib').  The quantity
pkt_size - size_varint(data_length) is computed in Int as in Python: it
can be negative for a malformed header, in which case b.read returns the
whole rest, the length test fails and the reader restores and waits for
more data. -/

inductive RawResult where
  | needMore (b : ReadBuffer)
  | protoError
  | packet (body : List Nat) (b : ReadBuffer)
deriving DecidableEq

def read_raw (decompress : List Nat → Option (List Nat)) (b : ReadBuffer)
    (compression_threshold : Option Nat) : RawResult :=
  let ss := b.snapshot
  match rb_read_varint b with
  | (none, b₁) => .needMore (b₁.restore ss)
  | (some pkt_size, b₁) =>
    match compression_threshold with
    | some ct =>
      match rb_read_varint b₁ with
      | (none, b₂) => .needMore (b₂.restore ss)
      | (some data_length, b₂) =>
        let data_size : Int := (pkt_size : Int) - (size_varint data_length : Int)
        let r := b₂.readCount data_size
        if (r.1.length : Int) ≠ data_size then .needMore (r.2.restore ss)
        else if data_length = 0 then
          if ct ≤ r.1.length then .protoError
          else .packet r.1 r.2
        else
          match decompress r.1 with
          | none => .protoError
          | some decompressed =>
            if decompressed.length ≠ data_length then .protoError
            else if decompressed.length < ct then .protoError
            else .packet decompressed r.2
    | none =>
      let r := b₁.read pkt_size
      if r.1.length ≠ pkt_size then .needMore (r.2.restore ss)
      else .packet r.1 r.2

/-- write_packet over the scratch-buffer contents raw (the varint packet
id followed by the emitted payload). -/
def write_packet (compress : List Nat → List Nat) (raw : List Nat)
    (compression_threshold : Option Nat) : List Nat :=
  let size := raw.length
  match compression_threshold with
  | none => write_varint size ++ raw
  | some ct =>
    if size ≥ ct then
      let compressed := compress raw
      write_varint (size_varint raw.length + compressed.length)
        ++ write_varint raw.length ++ compressed
    else
      write_varint (size_varint 0 + raw.length) ++ write_varint 0 ++ raw

theorem rb_read_varint_write (data : List Nat) (pos v : Nat) (rest : List Nat)
    (h : data.drop pos = write_varint v ++ rest) :
    rb_read_varint ⟨data, pos⟩ = (some v, ⟨data, pos + size_varint v⟩) := by
  unfold rb_read_varint
  simp only [h, read_varint_of_write]

theorem drop_after_varint (data : List Nat) (pos v : Nat) (rest : List Nat)
    (h : data.drop pos = write_varint v ++ rest) :
    data.drop (pos + size_varint v) = rest := by
  rw [← List.drop_drop, h, ← write_varint_length, List.drop_left]

/-- C2: with a compression threshold t ≥ 0 set, write_packet emits a
frame with data_length 0 and the uncompressed body exactly when the body
is shorter than t, and a frame whose data_length is the uncompressed body
length with a zlib body otherwise; and on a frame with a well-formed
header carrying data_length dl and stored body payload (which
decompresses to d), read_raw raises a fatal protocol error exactly when
dl = 0 but the stored body has length ≥ t, or dl > 0 but the decompressed
length differs from dl, or dl > 0 but the decompressed length is < t. -/
theorem c2_compression_envelope (t : Nat) (compress : List Nat → List Nat)
    (decompress : List Nat → Option (List Nat)) (body : List Nat)
    (dl : Nat) (payload d : List Nat) (hdec : decompress payload = some d) :
    (body.length < t →
        write_packet compress body (some t)
          = write_varint (size_varint 0 + body.length) ++ write_varint 0 ++ body)
      ∧ (t ≤ body.length →
        write_packet compress body (some t)
          = write_varint (size_varint body.length + (compress body).length)
              ++ write_varint body.length ++ compress body)
      ∧ (read_raw decompress
            ⟨write_varint (size_varint dl + payload.length)
              ++ write_varint dl ++ payload, 0⟩ (some t) = .protoError
          ↔ ((dl = 0 ∧ t ≤ payload.length)
              ∨ (dl ≠ 0 ∧ d.length ≠ dl)
              ∨ (dl ≠ 0 ∧ d.length < t))) := by
  refine ⟨?_, ?_, ?_⟩
  · intro hlt
    simp only [write_packet]
    rw [if_neg (by omega : ¬ body.length ≥ t)]
  · intro hge
    simp only [write_packet]
    rw [if_pos (by omega : body.length ≥ t)]
  · have hF : (write_varint (size_varint dl + payload.length)
        ++ write_varint dl ++ payload).drop 0
          = write_varint (size_varint dl + payload.length)
            ++ (write_varint dl ++ payload) := by
      rw [List.drop_zero, List.append_assoc]
    have hrb1 := rb_read_varint_write _ 0 _ _ hF
    have hd1 := drop_after_varint _ 0 _ _ hF
    have hrb2 := rb_read_varint_write _ _ _ _ hd1
    have hd2 := drop_after_varint _ _ _ _ hd1
    rw [read_raw]
    simp only [ReadBuffer.snapshot, hrb1, hrb2]
    have hds : ((size_varint dl + payload.length : Nat) : Int)
        - ((size_varint dl : Nat) : Int) = (payload.length : Int) := by
      push_cast; ring
    rw [hds]
    rw [ReadBuffer.readCount, if_neg (by omega : ¬ ((payload.length : Int) < 0))]
    rw [ReadBuffer.read]
    simp only [hd2, Int.toNat_natCast, List.take_length]
    rw [if_neg (by simp)]
    by_cases hdl : dl = 0
    · subst hdl
      rw [if_pos rfl]
      by_cases ht : t ≤ payload.length
      · simp [ht]
      · simp [ht]
    · rw [if_neg hdl, hdec]
      dsimp only
      by_cases h1 : d.length ≠ dl
      · simp [h1, hdl]
      · rw [if_neg h1]
        by_cases h2 : d.length < t
        · simp [h2, hdl, h1]
        · simp [h2, hdl, h1]

/-- Witness for C2 at t = 5, body = [1,2,3], dl = 0, payload = [9,9,9],
with identity compression. -/
theorem c2_compression_envelope_witness :
    (fun _ => some ([9, 9, 9] : List Nat)) [9, 9, 9] = some [9, 9, 9]
      ∧ (([1, 2, 3] : List Nat).length < 5 →
          write_packet (fun l => l) [1, 2, 3] (some 5)
            = write_varint (size_varint 0 + ([1, 2, 3] : List Nat).length)
                ++ write_varint 0 ++ [1, 2, 3])
      ∧ (5 ≤ ([1, 2, 3] : List Nat).length →
          write_packet (fun l => l) [1, 2, 3] (some 5)
            = write_varint (size_varint ([1, 2, 3] : List Nat).length
                  + ((fun l => l) [1, 2, 3] : List Nat).length)
                ++ write_varint ([1, 2, 3] : List Nat).length ++ (fun l => l) [1, 2, 3])
      ∧ (read_raw (fun _ => some [9, 9, 9])
            ⟨write_varint (size_varint 0 + ([9, 9, 9] : List Nat).length)
              ++ write_varint 0 ++ [9, 9, 9], 0⟩ (some 5) = .protoError
          ↔ ((0 = 0 ∧ 5 ≤ ([9, 9, 9] : List Nat).length)
              ∨ (0 ≠ 0 ∧ ([9, 9, 9] : List Nat).length ≠ 0)
              ∨ (0 ≠ 0 ∧ ([9, 9, 9] : List Nat).length < 5))) :=
  ⟨rfl,
    (c2_compression_envelope 5 (fun l => l) (fun _ => some [9, 9, 9]) [1, 2, 3]
      0 [9, 9, 9] [9, 9, 9] rfl).1,
    (c2_compression_envelope 5 (fun l => l) (fun _ => some [9, 9, 9]) [1, 2, 3]
      0 [9, 9, 9] [9, 9, 9] rfl).2.1,
    (c2_compression_envelope 5 (fun l => l) (fun _ => some [9, 9, 9]) [1, 2, 3]
      0 [9, 9, 9] [9, 9, 9] rfl).2.2⟩

/-! ### Handshake schema (proto.py lines 1324-1329) and the C4 scenario -/

/-- proto.py write_ushort: pack(">H", value). -/
def write_ushort (v : Nat) : Option (List Nat) :=
  if v < 2 ^ 16 then some (beBytes 2 v) else none

/-- proto.py write_string: UTF-8 encode, then varint length prefix plus
the encoded bytes; strings are modelled by their UTF-8 byte sequences. -/
def write_string (s : List Nat) : List Nat :=
  write_varint s.length ++ s

/-- The body (varint packet id 0x00 followed by the emitted fields) of
the protocol-0 serverbound HANDSHAKE packet Handshake with schema
version varint / addr string / port ushort / state varint. -/
def handshake_body (version : Nat) (addr : List Nat) (port : Nat) (state : Nat) :
    Option (List Nat) :=
  match write_ushort port with
  | none => none
  | some pb =>
    some (write_varint 0x00
      ++ (write_varint version ++ write_string addr ++ pb ++ write_varint state))

/-- The full uncompressed frame for Handshake(version=47,
addr="localhost", port=25565, state=2); "localhost" UTF-8 encodes to the
nine bytes 6c 6f 63 61 6c 68 6f 73 74. -/
def handshake_localhost_frame : Option (List Nat) :=
  (handshake_body 47 [0x6c, 0x6f, 0x63, 0x61, 0x6c, 0x68, 0x6f, 0x73, 0x74] 25565 2).map
    (fun raw => write_packet (fun l => l) raw none)

/-- Counterexample to C4 as stated: the emitted frame is not the claimed
byte string 10 00 2f 09 6c 6f 63 61 6c 68 6f 73 74 63 dd 02.  The body is
15 bytes long, so the varint size prefix is 0x0f, not 0x10. -/
theorem c4_handshake_counterexample :
    handshake_localhost_frame
      ≠ some [0x10, 0x00, 0x2f, 0x09, 0x6c, 0x6f, 0x63, 0x61, 0x6c, 0x68,
          0x6f, 0x73, 0x74, 0x63, 0xdd, 0x02] := by
  decide

/-- C4 (amended): the wire bytes of the uncompressed v47 Handshake frame
with version=47, addr="localhost", port=25565, state=2 are
0f 00 2f 09 6c 6f 63 61 6c 68 6f 73 74 63 dd 02: a varint size prefix
(15 = 0x0f) followed by varint id, varint version, varint-length-prefixed
UTF-8 address, big-endian ushort port and varint state. -/
theorem c4_handshake_frame_bytes :
    handshake_localhost_frame
      = some [0x0f, 0x00, 0x2f, 0x09, 0x6c, 0x6f, 0x63, 0x61, 0x6c, 0x68,
          0x6f, 0x73, 0x74, 0x63, 0xdd, 0x02] := by
  decide

/-! ### Frame extraction and split delivery (C3) -/

theorem write_varint_loop_take_big (v : Nat) :
    ∀ j, j < (write_varint_loop v).length →
      ∀ b ∈ (write_varint_loop v).take j, 127 < b ∧ b &&& 128 ≠ 0 := by
  induction v using Nat.strong_induction_on with
  | _ v ih =>
    intro j hj b hb
    rw [write_varint_loop] at hj hb
    by_cases h7 : v >>> 7 = 0
    · rw [dif_pos h7] at hj hb
      simp only [List.length_cons, List.length_nil] at hj
      have hj0 : j = 0 := by omega
      subst hj0
      simp at hb
    · rw [dif_neg h7] at hj hb
      cases j with
      | zero => simp at hb
      | succ j' =>
        rw [List.take_succ_cons] at hb
        simp only [List.length_cons] at hj
        have hmod : v &&& 127 < 128 := by
          rw [and_127_eq_mod]; exact Nat.mod_lt v (by norm_num)
        rcases List.mem_cons.mp hb with hb1 | hb2
        · subst hb1
          refine ⟨or_128_gt_127 _ hmod, ?_⟩
          rw [or_128_and_128 _ hmod]
          norm_num
        · have hvpos : 0 < v := by
            rcases Nat.eq_zero_or_pos v with h0 | h0
            · subst h0; simp at h7
            · exact h0
          have hlt : v >>> 7 < v := by
            rw [shiftRight_7_eq_div]; exact Nat.div_lt_self hvpos (by norm_num)
          exact ih _ hlt j' (by omega) b hb2

theorem write_varint_take_big (v : Nat) :
    ∀ j, j < (write_varint v).length →
      ∀ b ∈ (write_varint v).take j, 127 < b ∧ b &&& 128 ≠ 0 := by
  intro j hj b hb
  rw [write_varint] at hj hb
  by_cases h : v ≤ 127
  · rw [if_pos h] at hj hb
    simp only [List.length_cons, List.length_nil] at hj
    have hj0 : j = 0 := by omega
    subst hj0
    simp at hb
  · rw [if_neg h] at hj hb
    exact write_varint_loop_take_big v j hj b hb

theorem read_varint_loop_none (l : List Nat) (h : ∀ b ∈ l, b &&& 128 ≠ 0) :
    ∀ acc sh c, read_varint_loop l acc sh c = none := by
  induction l with
  | nil => intro acc sh c; rfl
  | cons q rest ih =>
    intro acc sh c
    rw [read_varint_loop, if_neg (h q (by simp))]
    exact ih (fun b hb => h b (by simp [hb])) _ _ _

theorem read_varint_none_of_big (l : List Nat) (h : ∀ b ∈ l, 127 < b ∧ b &&& 128 ≠ 0) :
    read_varint l = none := by
  cases l with
  | nil => rfl
  | cons q rest =>
    rw [read_varint, if_neg (by have := (h q (by simp)).1; omega)]
    exact read_varint_loop_none rest (fun b hb => (h b (by simp [hb])).2) _ _ _

theorem rb_read_varint_none (data : List Nat) (pos : Nat)
    (h : read_varint (data.drop pos) = none) :
    rb_read_varint ⟨data, pos⟩ = (none, ⟨data, pos + (data.drop pos).length⟩) := by
  unfold rb_read_varint
  simp only [h]

theorem rb_read_varint_data (b : ReadBuffer) : (rb_read_varint b).2.data = b.data := by
  unfold rb_read_varint
  cases read_varint (b.data.drop b.pos) <;> rfl

theorem rb_read_data (b : ReadBuffer) (n : Nat) : (b.read n).2.data = b.data := rfl

theorem rb_readCount_data (b : ReadBuffer) (n : Int) : (b.readCount n).2.data = b.data := by
  unfold ReadBuffer.readCount ReadBuffer.readAll ReadBuffer.read
  split <;> rfl

theorem restore_snapshot_of_data (b X : ReadBuffer) (h : X.data = b.data) :
    X.restore b.pos = b := by
  rw [ReadBuffer.restore, h]

/-- C3 part (a): whenever read_raw reports that more data is needed, the
buffer it hands back is exactly the input buffer: its data is untouched
and its cursor was restored to the snapshot taken at entry. -/
theorem read_raw_needMore (dec : List Nat → Option (List Nat)) (t : Option Nat)
    (b b' : ReadBuffer) (h : read_raw dec b t = .needMore b') : b' = b := by
  rw [read_raw] at h
  simp only [ReadBuffer.snapshot] at h
  rcases hrb : rb_read_varint b with ⟨o, b₁⟩
  rw [hrb] at h
  have hd1 : b₁.data = b.data := by
    have hx := rb_read_varint_data b
    rw [hrb] at hx
    exact hx
  cases o with
  | none =>
    dsimp only at h
    injection h with h2
    rw [← h2]
    exact restore_snapshot_of_data b b₁ hd1
  | some ps =>
    cases t with
    | none =>
      dsimp only at h
      split at h
      · injection h with h2
        rw [← h2]
        exact restore_snapshot_of_data b _ (by rw [rb_read_data]; exact hd1)
      · cases h
    | some ct =>
      dsimp only at h
      rcases hrb2 : rb_read_varint b₁ with ⟨o₂, b₂⟩
      rw [hrb2] at h
      have hd2 : b₂.data = b.data := by
        have hx := rb_read_varint_data b₁
        rw [hrb2] at hx
        rw [hx]
        exact hd1
      cases o₂ with
      | none =>
        dsimp only at h
        injection h with h2
        rw [← h2]
        exact restore_snapshot_of_data b b₂ hd2
      | some dl =>
        dsimp only at h
        split at h
        · injection h with h2
          rw [← h2]
          exact restore_snapshot_of_data b _ (by rw [rb_readCount_data]; exact hd2)
        · split at h
          · split at h
            · cases h
            · cases h
          · rcases hde : dec ((b₂.readCount ((ps : Int) - (size_varint dl : Int))).1)
              with _ | d
            · rw [hde] at h
              cases h
            · rw [hde] at h
              dsimp only at h
              split at h
              · cases h
              · split at h
                · cases h
                · cases h

/-- A complete, non-erroring wire frame carrying a given body, relative
to the threshold mode and the decompression map: in uncompressed mode a
varint size prefix followed by the body; in compressed mode either an
uncompressed envelope (data_length 0, body stored directly, shorter than
the threshold) or a compressed envelope (data_length = body length ≥
threshold and > 0, stored payload decompressing to the body). -/
def FrameSpec (decompress : List Nat → Option (List Nat)) (t : Option Nat)
    (wire body : List Nat) : Prop :=
  match t with
  | none => wire = write_varint body.length ++ body
  | some ct =>
      (wire = write_varint (size_varint 0 + body.length) ++ write_varint 0 ++ body
          ∧ body.length < ct)
        ∨ (∃ payload,
            wire = write_varint (size_varint body.length + payload.length)
                ++ write_varint body.length ++ payload
              ∧ decompress payload = some body ∧ ct ≤ body.length ∧ body.length ≠ 0)

theorem read_raw_none_first (dec : List Nat → Option (List Nat)) (t : Option Nat)
    (data : List Nat) (pos : Nat)
    (hnone : read_varint (data.drop pos) = none) :
    read_raw dec ⟨data, pos⟩ t = .needMore ⟨data, pos⟩ := by
  rw [read_raw]
  simp only [ReadBuffer.snapshot, rb_read_varint_none data pos hnone]
  rfl

theorem drop_after_chunk (data : List Nat) (pos : Nat) (l rest : List Nat)
    (h : data.drop pos = l ++ rest) :
    data.drop (pos + l.length) = rest := by
  rw [← List.drop_drop, h, List.drop_left]

/-- Reading from a buffer whose readable part starts with a complete
frame yields exactly that frame's body and consumes exactly the frame's
bytes. -/
theorem read_raw_frame (dec : List Nat → Option (List Nat)) (t : Option Nat)
    (w body : List Nat) (hw : FrameSpec dec t w body) :
    ∀ data pos rest, data.drop pos = w ++ rest →
      read_raw dec ⟨data, pos⟩ t = .packet body ⟨data, pos + w.length⟩ := by
  intro data pos rest hdrop
  cases t with
  | none =>
    simp only [FrameSpec] at hw
    subst hw
    have hF : data.drop pos = write_varint body.length ++ (body ++ rest) := by
      rw [hdrop, List.append_assoc]
    have hrb1 := rb_read_varint_write _ _ _ _ hF
    have hd1 := drop_after_varint _ _ _ _ hF
    rw [read_raw]
    simp only [ReadBuffer.snapshot, hrb1]
    rw [ReadBuffer.read]
    simp only [hd1, List.take_left]
    rw [if_neg (by simp)]
    have hlen : pos + size_varint body.length + body.length
        = pos + (write_varint body.length ++ body).length := by
      rw [List.length_append, write_varint_length]; omega
    rw [hlen]
  | some ct =>
    rcases hw with ⟨hw1, hlt⟩ | ⟨P, hw1, hdec, hge, hne⟩
    · subst hw1
      have hF : data.drop pos
          = write_varint (size_varint 0 + body.length)
            ++ (write_varint 0 ++ (body ++ rest)) := by
        rw [hdrop]; simp [List.append_assoc]
      have hrb1 := rb_read_varint_write _ _ _ _ hF
      have hd1 := drop_after_varint _ _ _ _ hF
      have hrb2 := rb_read_varint_write _ _ _ _ hd1
      have hd2 := drop_after_varint _ _ _ _ hd1
      rw [read_raw]
      simp only [ReadBuffer.snapshot, hrb1, hrb2]
      have hds : ((size_varint 0 + body.length : Nat) : Int)
          - ((size_varint 0 : Nat) : Int) = (body.length : Int) := by push_cast; ring
      rw [hds, ReadBuffer.readCount, if_neg (by omega : ¬ ((body.length : Int) < 0))]
      rw [ReadBuffer.read]
      simp only [hd2, Int.toNat_natCast, List.take_left]
      rw [if_neg (by simp)]
      rw [if_pos (by trivial)]
      rw [if_neg (by omega : ¬ ct ≤ body.length)]
      have hlen : pos + size_varint (size_varint 0 + body.length) + size_varint 0
            + body.length
          = pos + (write_varint (size_varint 0 + body.length)
              ++ write_varint 0 ++ body).length := by
        simp only [List.length_append, write_varint_length]; omega
      rw [hlen]
    · subst hw1
      have hF : data.drop pos
          = write_varint (size_varint body.length + P.length)
            ++ (write_varint body.length ++ (P ++ rest)) := by
        rw [hdrop]; simp [List.append_assoc]
      have hrb1 := rb_read_varint_write _ _ _ _ hF
      have hd1 := drop_after_varint _ _ _ _ hF
      have hrb2 := rb_read_varint_write _ _ _ _ hd1
      have hd2 := drop_after_varint _ _ _ _ hd1
      rw [read_raw]
      simp only [ReadBuffer.snapshot, hrb1, hrb2]
      have hds : ((size_varint body.length + P.length : Nat) : Int)
          - ((size_varint body.length : Nat) : Int) = (P.length : Int) := by
        push_cast; ring
      rw [hds, ReadBuffer.readCount, if_neg (by omega : ¬ ((P.length : Int) < 0))]
      rw [ReadBuffer.read]
      simp only [hd2, Int.toNat_natCast, List.take_left]
      rw [if_neg (by simp), if_neg hne, hdec]
      dsimp only
      rw [if_neg (by omega : ¬ body.length ≠ body.length),
        if_neg (by omega : ¬ body.length < ct)]
      have hlen : pos + size_varint (size_varint body.length + P.length)
            + size_varint body.length + P.length
          = pos + (write_varint (size_varint body.length + P.length)
              ++ write_varint body.length ++ P).length := by
        simp only [List.length_append, write_varint_length]; omega
      rw [hlen]

/-- Reading from a buffer whose readable part is a strict prefix of a
complete frame (with nothing after it) reports needMore and leaves the
buffer untouched: the reader restores the snapshot on every short
read. -/
theorem read_raw_partial (dec : List Nat → Option (List Nat)) (t : Option Nat)
    (w body : List Nat) (hw : FrameSpec dec t w body) :
    ∀ data pos j, j < w.length → data.drop pos = w.take j →
      read_raw dec ⟨data, pos⟩ t = .needMore ⟨data, pos⟩ := by
  intro data pos j hj hdrop
  cases t with
  | none =>
    simp only [FrameSpec] at hw
    subst hw
    by_cases h1 : j < (write_varint body.length).length
    · refine read_raw_none_first dec none data pos ?_
      have htake : (write_varint body.length ++ body).take j
          = (write_varint body.length).take j := by
        rw [List.take_append_eq_append_take,
          (show j - (write_varint body.length).length = 0 by omega)]
        simp
      rw [hdrop, htake]
      exact read_varint_none_of_big _ (write_varint_take_big _ j h1)
    · push_neg at h1
      have hklt : j - (write_varint body.length).length < body.length := by
        rw [List.length_append] at hj; omega
      have hF : data.drop pos
          = write_varint body.length
              ++ body.take (j - (write_varint body.length).length) := by
        rw [hdrop, List.take_append_eq_append_take, List.take_of_length_le h1]
      have hrb1 := rb_read_varint_write _ _ _ _ hF
      have hd1 := drop_after_varint _ _ _ _ hF
      rw [read_raw]
      simp only [ReadBuffer.snapshot, hrb1]
      rw [ReadBuffer.read]
      simp only [hd1]
      rw [List.take_take, min_eq_right (le_of_lt hklt)]
      rw [if_pos (by rw [List.length_take]; omega)]
      rfl
  | some ct =>
    have hshape : ∃ dl P, w = write_varint (size_varint dl + P.length)
        ++ write_varint dl ++ P := by
      rcases hw with ⟨h1, _⟩ | ⟨payload, h1, _, _, _⟩
      · exact ⟨0, body, h1⟩
      · exact ⟨body.length, payload, h1⟩
    obtain ⟨dl, P, hw1⟩ := hshape
    subst hw1
    rw [List.length_append, List.length_append] at hj
    rw [List.append_assoc] at hdrop
    by_cases h1 : j < (write_varint (size_varint dl + P.length)).length
    · refine read_raw_none_first dec (some ct) data pos ?_
      have htake : (write_varint (size_varint dl + P.length)
            ++ (write_varint dl ++ P)).take j
          = (write_varint (size_varint dl + P.length)).take j := by
        rw [List.take_append_eq_append_take,
          (show j - (write_varint (size_varint dl + P.length)).length = 0 by omega)]
        simp
      rw [hdrop, htake]
      exact read_varint_none_of_big _ (write_varint_take_big _ j h1)
    · push_neg at h1
      by_cases h2 : j - (write_varint (size_varint dl + P.length)).length
          < (write_varint dl).length
      · have hF : data.drop pos
            = write_varint (size_varint dl + P.length)
              ++ (write_varint dl).take
                  (j - (write_varint (size_varint dl + P.length)).length) := by
          rw [hdrop, List.take_append_eq_append_take, List.take_of_length_le h1,
            List.take_append_eq_append_take,
            (show j - (write_varint (size_varint dl + P.length)).length
                - (write_varint dl).length = 0 by omega)]
          simp
        have hrb1 := rb_read_varint_write _ _ _ _ hF
        have hd1 := drop_after_varint _ _ _ _ hF
        rw [read_raw]
        simp only [ReadBuffer.snapshot, hrb1]
        have hrb2 := rb_read_varint_none data
          (pos + size_varint (size_varint dl + P.length))
          (by rw [hd1]
              exact read_varint_none_of_big _ (write_varint_take_big _ _ h2))
        simp only [hrb2]
        rfl
      · push_neg at h2
        set j3 := j - (write_varint (size_varint dl + P.length)).length
          - (write_varint dl).length with hj3
        have hj3lt : j3 < P.length := by omega
        have hF : data.drop pos
            = write_varint (size_varint dl + P.length)
              ++ (write_varint dl ++ P.take j3) := by
          rw [hdrop, List.take_append_eq_append_take, List.take_of_length_le h1,
            List.take_append_eq_append_take, List.take_of_length_le h2]
        have hrb1 := rb_read_varint_write _ _ _ _ hF
        have hd1 := drop_after_varint _ _ _ _ hF
        have hrb2 := rb_read_varint_write _ _ _ _ hd1
        have hd2 := drop_after_varint _ _ _ _ hd1
        rw [read_raw]
        simp only [ReadBuffer.snapshot, hrb1, hrb2]
        have hds : ((size_varint dl + P.length : Nat) : Int)
            - ((size_varint dl : Nat) : Int) = (P.length : Int) := by
          push_cast; ring
        rw [hds, ReadBuffer.readCount, if_neg (by omega : ¬ ((P.length : Int) < 0))]
        rw [ReadBuffer.read]
        simp only [hd2, Int.toNat_natCast]
        rw [List.take_take, min_eq_right (le_of_lt hj3lt)]
        rw [if_pos (by
          rw [List.length_take]
          have : min j3 P.length = j3 := by omega
          rw [this]
          exact_mod_cast (by omega : (j3 : Int) ≠ (P.length : Int)))]
        rfl

/-- Repeatedly extract frames with read_raw until it reports needMore;
returns the extracted bodies in order along with the final buffer (the
caller's receive loop; proto.py Endpoint.read callers append received
bytes and read in a loop until read returns None). -/
def drain (dec : List Nat → Option (List Nat)) (t : Option Nat) :
    Nat → ReadBuffer → List (List Nat) × ReadBuffer
  | 0, b => ([], b)
  | fuel + 1, b =>
    match read_raw dec b t with
    | .packet body b' =>
      let r := drain dec t fuel b'
      (body :: r.1, r.2)
    | .needMore b' => ([], b')
    | .protoError => ([], b)

/-- What may trail the complete frames in a buffer: nothing, or a strict
prefix of a complete frame. -/
def StubRest (dec : List Nat → Option (List Nat)) (t : Option Nat)
    (r : List Nat) : Prop :=
  r = [] ∨ ∃ w body j, FrameSpec dec t w body ∧ j < w.length ∧ r = w.take j

theorem drain_frames (dec : List Nat → Option (List Nat)) (t : Option Nat)
    (FS : List (List Nat × List Nat)) :
    ∀ fuel data pos rest,
      (∀ p ∈ FS, FrameSpec dec t p.1 p.2) → StubRest dec t rest →
      data.drop pos = ((FS.map Prod.fst).flatten) ++ rest →
      FS.length + 1 ≤ fuel →
      drain dec t fuel ⟨data, pos⟩
        = (FS.map Prod.snd, ⟨data, pos + ((FS.map Prod.fst).flatten).length⟩) := by
  induction FS with
  | nil =>
    intro fuel data pos rest hFS hstub hdrop hfuel
    obtain ⟨f, rfl⟩ : ∃ f, fuel = f + 1 := ⟨fuel - 1, by omega⟩
    rw [drain]
    simp only [List.map_nil, List.flatten_nil, List.nil_append] at hdrop ⊢
    have hnm : read_raw dec ⟨data, pos⟩ t = .needMore ⟨data, pos⟩ := by
      rcases hstub with h0 | ⟨w, body, j, hw, hj, hr⟩
      · refine read_raw_none_first dec t data pos ?_
        rw [hdrop, h0]
        rfl
      · exact read_raw_partial dec t w body hw data pos j hj (by rw [hdrop, hr])
    rw [hnm]
    simp
  | cons p FS ih =>
    intro fuel data pos rest hFS hstub hdrop hfuel
    obtain ⟨f, rfl⟩ : ∃ f, fuel = f + 1 := ⟨fuel - 1, by omega⟩
    rw [drain]
    have hsp : data.drop pos = p.1 ++ (((FS.map Prod.fst).flatten) ++ rest) := by
      rw [hdrop]
      simp [List.append_assoc]
    have hframe := read_raw_frame dec t p.1 p.2 (hFS p (by simp)) data pos _ hsp
    rw [hframe]
    dsimp only
    have hd := drop_after_chunk data pos p.1 _ hsp
    rw [ih f data (pos + p.1.length) rest (fun q hq => hFS q (by simp [hq])) hstub hd
      (by simp only [List.length_cons] at hfuel; omega)]
    simp only [List.map_cons, List.flatten_cons, List.length_append,
      Prod.mk.injEq, ReadBuffer.mk.injEq, true_and]
    omega

theorem append_readable (b : ReadBuffer) (d : List Nat) (h : b.pos ≤ b.data.length) :
    (b.append d).readable = b.readable ++ d := by
  rw [ReadBuffer.append]
  split
  · rw [ReadBuffer.readable, ReadBuffer.readable]
    simp
  · rw [ReadBuffer.readable, ReadBuffer.readable]
    exact List.drop_append_of_le_length h

theorem drain_given_readable (dec : List Nat → Option (List Nat)) (t : Option Nat)
    (FS : List (List Nat × List Nat)) (fuel : Nat) (b : ReadBuffer)
    (hFS : ∀ p ∈ FS, FrameSpec dec t p.1 p.2)
    (hread : b.readable = (FS.map Prod.fst).flatten)
    (hfuel : FS.length + 1 ≤ fuel) :
    (drain dec t fuel b).1 = FS.map Prod.snd := by
  obtain ⟨data, pos⟩ := b
  have hdrop : data.drop pos = ((FS.map Prod.fst).flatten) ++ [] := by
    rw [List.append_nil]
    exact hread
  rw [drain_frames dec t FS fuel data pos [] hFS (Or.inl rfl) hdrop hfuel]

/-- Splitting a flattened list of chunks at an arbitrary byte boundary:
the left part is some whole chunks plus (possibly) a strict prefix of the
next chunk, and the right part is the matching remainder. -/
theorem flatten_split (ws : List (List Nat)) :
    ∀ u v, ws.flatten = u ++ v →
      ∃ i w1, u = (ws.take i).flatten ++ w1
        ∧ ((w1 = [] ∧ v = (ws.drop i).flatten)
            ∨ (∃ w w2 rest2, ws.drop i = w :: rest2 ∧ w = w1 ++ w2
                ∧ w1.length < w.length ∧ v = w2 ++ rest2.flatten)) := by
  induction ws with
  | nil =>
    intro u v h
    simp only [List.flatten_nil] at h
    obtain ⟨hu, hv⟩ := List.append_eq_nil.mp h.symm
    subst hu
    subst hv
    exact ⟨0, [], by simp, Or.inl ⟨rfl, by simp⟩⟩
  | cons w ws ih =>
    intro u v h
    rw [List.flatten_cons] at h
    by_cases hlen : w.length ≤ u.length
    · have hu : u.take w.length = w := by
        have h1 : (u ++ v).take w.length = u.take w.length := by
          rw [List.take_append_eq_append_take,
            (show w.length - u.length = 0 by omega)]
          simp
        rw [← h1, ← h, List.take_left]
      have hrest : ws.flatten = u.drop w.length ++ v := by
        have h1 : (u ++ v).drop w.length = u.drop w.length ++ v :=
          List.drop_append_of_le_length hlen
        rw [← h1, ← h, List.drop_left]
      obtain ⟨i, w1, hu', hcase⟩ := ih (u.drop w.length) v hrest
      refine ⟨i + 1, w1, ?_, ?_⟩
      · rw [List.take_succ_cons, List.flatten_cons, List.append_assoc, ← hu']
        nth_rewrite 1 [← hu]
        rw [List.take_append_drop]
      · rw [List.drop_succ_cons]
        exact hcase
    · push_neg at hlen
      refine ⟨0, u, by simp, Or.inr ⟨w, w.drop u.length, ws, by simp, ?_, hlen, ?_⟩⟩
      · have h1 : (w ++ ws.flatten).take u.length = w.take u.length := by
          rw [List.take_append_eq_append_take,
            (show u.length - w.length = 0 by omega)]
          simp
        have h2 : w.take u.length = u := by
          rw [← h1, h, List.take_left]
        nth_rewrite 1 [← h2]
        rw [List.take_append_drop]
      · have h1 : (w ++ ws.flatten).drop u.length = w.drop u.length ++ ws.flatten :=
          List.drop_append_of_le_length (by omega)
        rw [h, List.drop_left] at h1
        exact h1

/-- C3: (1) whenever read_raw returns the need-more-data result it leaves
the buffer exactly as it was (cursor restored to the snapshot); (2) for
any concatenation of complete frames split at an arbitrary byte boundary
into two appends, repeated read_raw extraction yields the same body
sequence as delivering the bytes in one piece. -/
theorem c3_framing_split (dec : List Nat → Option (List Nat)) (t : Option Nat)
    (FS : List (List Nat × List Nat)) (u v : List Nat) (fuel : Nat)
    (hFS : ∀ p ∈ FS, FrameSpec dec t p.1 p.2)
    (hsplit : (FS.map Prod.fst).flatten = u ++ v)
    (hfuel : FS.length + 1 ≤ fuel) :
    (∀ b b', read_raw dec b t = .needMore b' → b' = b)
      ∧ (drain dec t fuel (ReadBuffer.append ⟨[], 0⟩ (u ++ v))).1 = FS.map Prod.snd
      ∧ (drain dec t fuel (ReadBuffer.append ⟨[], 0⟩ u)).1
          ++ (drain dec t fuel
              ((drain dec t fuel (ReadBuffer.append ⟨[], 0⟩ u)).2.append v)).1
            = FS.map Prod.snd := by
  refine ⟨fun b b' h => read_raw_needMore dec t b b' h, ?_, ?_⟩
  · refine drain_given_readable dec t FS fuel _ hFS ?_ hfuel
    rw [ReadBuffer.append, if_neg (by simp [ReadBuffer.max_size])]
    rw [ReadBuffer.readable]
    simp [hsplit]
  · obtain ⟨i, w1, hu, hcase⟩ := flatten_split (FS.map Prod.fst) u v hsplit
    have hb1 : ReadBuffer.append ⟨[], 0⟩ u = ⟨u, 0⟩ := by
      rw [ReadBuffer.append, if_neg (by simp [ReadBuffer.max_size])]
      simp
    have htake : ((FS.take i).map Prod.fst).flatten = ((FS.map Prod.fst).take i).flatten := by
      rw [List.map_take]
    have hstub : StubRest dec t w1 := by
      rcases hcase with ⟨h1, _⟩ | ⟨w, w2, rest2, hdrop_eq, hww, hlt, _⟩
      · exact Or.inl h1
      · have hw_mem : w ∈ FS.map Prod.fst := by
          have : w ∈ (FS.map Prod.fst).drop i := by rw [hdrop_eq]; simp
          exact List.drop_subset _ _ this
        obtain ⟨q, hq_mem, hq1⟩ := List.mem_map.mp hw_mem
        refine Or.inr ⟨w, q.2, w1.length, ?_, hlt, ?_⟩
        · rw [← hq1]
          exact hFS q hq_mem
        · rw [hww, List.take_left]
    have hdrain1 := drain_frames dec t (FS.take i) fuel u 0 w1
      (fun q hq => hFS q (List.take_subset i FS hq)) hstub
      (by rw [List.drop_zero, hu, htake])
      (by rw [List.length_take]; omega)
    rw [hb1, hdrain1]
    dsimp only
    have hposle : 0 + ((FS.take i).map Prod.fst).flatten.length ≤ u.length := by
      rw [htake, hu, List.length_append]
      omega
    have hread2 : (ReadBuffer.append
          ⟨u, 0 + ((FS.take i).map Prod.fst).flatten.length⟩ v).readable
        = ((FS.drop i).map Prod.fst).flatten := by
      rw [append_readable _ _ hposle, ReadBuffer.readable]
      dsimp only
      simp only [Nat.zero_add, htake]
      rw [hu, List.drop_left, List.map_drop]
      rcases hcase with ⟨h1, h2⟩ | ⟨w, w2, rest2, hdrop_eq, hww, hlt, hv⟩
      · rw [h1, h2]
        simp
      · rw [hv, hdrop_eq, List.flatten_cons, hww]
        simp [List.append_assoc]
    have hdrain2 := drain_given_readable dec t (FS.drop i) fuel _
      (fun q hq => hFS q (List.drop_subset i FS hq)) hread2
      (by rw [List.length_drop]; omega)
    rw [hdrain2, List.map_take, List.map_drop, List.take_append_drop]

/-- Witness for C3: one uncompressed frame 02 07 08 (body [7,8]) split
into the two deliveries [2] and [7,8], drained with fuel 2. -/
theorem c3_framing_split_witness :
    ((∀ p ∈ [(([2, 7, 8] : List Nat), ([7, 8] : List Nat))],
          FrameSpec (fun _ => none) none p.1 p.2)
        ∧ ([(([2, 7, 8] : List Nat), ([7, 8] : List Nat))].map Prod.fst).flatten
            = [2] ++ [7, 8]
        ∧ [(([2, 7, 8] : List Nat), ([7, 8] : List Nat))].length + 1 ≤ 2)
      ∧ (drain (fun _ => none) none 2 (ReadBuffer.append ⟨[], 0⟩ ([2] ++ [7, 8]))).1
          = [(([2, 7, 8] : List Nat), ([7, 8] : List Nat))].map Prod.snd
      ∧ (drain (fun _ => none) none 2 (ReadBuffer.append ⟨[], 0⟩ [2])).1
          ++ (drain (fun _ => none) none 2
              ((drain (fun _ => none) none 2
                (ReadBuffer.append ⟨[], 0⟩ [2])).2.append [7, 8])).1
            = [(([2, 7, 8] : List Nat), ([7, 8] : List Nat))].map Prod.snd := by
  have hfs : ∀ p ∈ [(([2, 7, 8] : List Nat), ([7, 8] : List Nat))],
      FrameSpec (fun _ => none) none p.1 p.2 := by
    intro p hp
    rw [List.mem_singleton] at hp
    subst hp
    show ([2, 7, 8] : List Nat) = write_varint ([7, 8] : List Nat).length ++ [7, 8]
    decide
  refine ⟨⟨hfs, by decide, by decide⟩, ?_, ?_⟩
  · exact (c3_framing_split (fun _ => none) none _ [2] [7, 8] 2 hfs (by decide)
      (by decide)).2.1
  · exact (c3_framing_split (fun _ => none) none _ [2] [7, 8] 2 hfs (by decide)
      (by decide)).2.2

/-! ### Snapshot/restore across operation sequences (C6)

A snapshot is a bare cursor position.  ReadBuffer.append compacts the
buffer when the consumed prefix exceeds 16384 bytes, which moves the
bytes a previously taken snapshot position refers to; the claimed
invariant fails on such sequences and holds when no intervening append
compacts. -/

inductive RBOp where
  | append (d : List Nat)
  | read (n : Nat)

def RBOp.apply : RBOp → ReadBuffer → ReadBuffer
  | .append d, b => b.append d
  | .read n, b => (b.read n).2

def applyOps : List RBOp → ReadBuffer → ReadBuffer
  | [], b => b
  | op :: ops, b => applyOps ops (op.apply b)

def appendedData : List RBOp → List Nat
  | [] => []
  | .append d :: ops => d ++ appendedData ops
  | .read _ :: ops => appendedData ops

/-- No append in the sequence runs while the read cursor is beyond
_max_size, so no append shuffles the buffer. -/
def NoCompaction : List RBOp → ReadBuffer → Prop
  | [], _ => True
  | .append d :: ops, b => b.pos ≤ ReadBuffer.max_size ∧ NoCompaction ops (b.append d)
  | .read n :: ops, b => NoCompaction ops ((b.read n).2)

/-- Counterexample to C6 as stated: read 16385 of 16386 buffered bytes,
snapshot, then append (the consumed prefix 16385 exceeds 16384, so append
shuffles the buffer and resets the cursor), then restore the snapshot.
The bytes readable after the snapshot began with 1, but reading after the
restore yields nothing: the stale snapshot position now points past the
end of the shuffled buffer. -/
theorem c6_counterexample :
    ((((⟨List.replicate 16385 0 ++ [1], 0⟩ : ReadBuffer).read 16385).2.append
          [2]).restore
        (((⟨List.replicate 16385 0 ++ [1], 0⟩ : ReadBuffer).read 16385).2.snapshot)).read 1
        = ([], ⟨[1, 2], 16385⟩)
      ∧ ((⟨List.replicate 16385 0 ++ [1], 0⟩ : ReadBuffer).read 16385).2.readable = [1]
      ∧ ([] : List Nat) ≠ [1] := by
  have hlen : (List.replicate 16385 (0 : Nat)).length = 16385 := List.length_replicate _ _
  have ht : (List.replicate 16385 (0 : Nat) ++ [1]).take 16385
      = List.replicate 16385 0 := by
    nth_rewrite 1 [← hlen]
    rw [List.take_left]
  have hd : (List.replicate 16385 (0 : Nat) ++ [1]).drop 16385 = [1] := by
    nth_rewrite 1 [← hlen]
    rw [List.drop_left]
  have hb1 : ((⟨List.replicate 16385 0 ++ [1], 0⟩ : ReadBuffer).read 16385).2
      = ⟨List.replicate 16385 0 ++ [1], 16385⟩ := by
    rw [ReadBuffer.read]
    dsimp only
    rw [List.drop_zero, ht, hlen]
  rw [hb1]
  have happ : (⟨List.replicate 16385 0 ++ [1], 16385⟩ : ReadBuffer).append [2]
      = ⟨[1, 2], 0⟩ := by
    rw [ReadBuffer.append, if_pos (by norm_num [ReadBuffer.max_size])]
    rw [hd]
    rfl
  rw [happ]
  refine ⟨?_, ?_, by decide⟩
  · rw [ReadBuffer.snapshot, ReadBuffer.restore, ReadBuffer.read]
    dsimp only
    rw [List.drop_eq_nil_of_le (by norm_num : ([1, 2] : List Nat).length ≤ 16385)]
    rfl
  · rw [ReadBuffer.readable]
    exact hd

theorem applyOps_data (ops : List RBOp) :
    ∀ b : ReadBuffer, NoCompaction ops b →
      (applyOps ops b).data = b.data ++ appendedData ops := by
  induction ops with
  | nil => intro b _; simp [applyOps, appendedData]
  | cons op ops ih =>
    intro b hnc
    cases op with
    | append d =>
      obtain ⟨hle, hnc'⟩ := hnc
      rw [applyOps, RBOp.apply, ih _ hnc', appendedData]
      rw [ReadBuffer.append, if_neg (by omega)]
      simp [List.append_assoc]
    | read n =>
      rw [applyOps, RBOp.apply, ih _ hnc, appendedData]
      rfl

/-- C6 (amended): after restore(s) for a snapshot s taken earlier,
subsequent reads reproduce exactly the bytes readable at the snapshot
followed by all data appended since, PROVIDED no append ran while the
consumed prefix exceeded 16384 bytes: a compacting append shuffles the
buffer, after which the stale snapshot position no longer refers to the
same bytes (see the counterexample). -/
theorem c6_snapshot_restore (b : ReadBuffer) (ops : List RBOp)
    (hwf : b.pos ≤ b.data.length) (hnc : NoCompaction ops b) :
    ((applyOps ops b).restore b.snapshot).readable
      = b.readable ++ appendedData ops := by
  rw [ReadBuffer.restore, ReadBuffer.readable, ReadBuffer.snapshot]
  dsimp only
  rw [applyOps_data ops b hnc, ReadBuffer.readable]
  exact List.drop_append_of_le_length hwf

/-- Witness for C6 at a concrete buffer and operation sequence. -/
theorem c6_snapshot_restore_witness :
    ((⟨[1, 2, 3], 1⟩ : ReadBuffer).pos ≤ (⟨[1, 2, 3], 1⟩ : ReadBuffer).data.length
        ∧ NoCompaction [RBOp.read 1, RBOp.append [4]] ⟨[1, 2, 3], 1⟩)
      ∧ ((applyOps [RBOp.read 1, RBOp.append [4]] ⟨[1, 2, 3], 1⟩).restore
            (⟨[1, 2, 3], 1⟩ : ReadBuffer).snapshot).readable
          = (⟨[1, 2, 3], 1⟩ : ReadBuffer).readable
              ++ appendedData [RBOp.read 1, RBOp.append [4]] := by
  have hnc : NoCompaction [RBOp.read 1, RBOp.append [4]] ⟨[1, 2, 3], 1⟩ := by
    refine ⟨by norm_num [ReadBuffer.read, ReadBuffer.max_size], trivial⟩
  exact ⟨⟨by norm_num, hnc⟩, c6_snapshot_restore ⟨[1, 2, 3], 1⟩ _ (by norm_num) hnc⟩

/-! ### Protocol registry (proto.py lines 1125-1166)

Python dicts are modelled as association lists with unique keys: lookup
finds the (unique) entry, insert replaces any entry with the same key,
iteration enumerates the entries in list order (Python dict iteration
order is arbitrary; based_on's result does not depend on it because the
(state, side, id) keys it writes are pairwise distinct).  A Protocol's
_states maps a state to a pair of per-side packet dicts (side 0 =
CLIENTBOUND, side 1 = SERVERBOUND); the schema type is left abstract.

    def based_on(self, other_protocol_version):
        other_protocol = ProtocolVersion[other_protocol_version]
        for state, sides in other_protocol._states.iteritems():
            for side, packets in enumerate(sides):
                for packet in packets.itervalues():
                    self.add_packet(state, side, packet)
    def get_packets(self, state, side):
        return self._states[state][side]
    def add_packet(self, state, side, packet):
        self._states.setdefault(state, [{}, {}])[side][packet.id] = packet
-/

abbrev PDict (α : Type) := List (Nat × α)

def dget {α : Type} (d : PDict α) (k : Nat) : Option α :=
  (d.find? (fun e => e.1 == k)).map Prod.snd

def dput {α : Type} (d : PDict α) (k : Nat) (v : α) : PDict α :=
  (k, v) :: d.eraseP (fun e => e.1 == k)

structure Proto (α : Type) where
  states : PDict (PDict α × PDict α)

def emptyProto {α : Type} : Proto α := ⟨[]⟩

/-- add_packet; the packet's id attribute is passed explicitly as pid. -/
def Proto.add_packet {α : Type} (p : Proto α) (state : Nat) (side : Fin 2)
    (pid : Nat) (pkt : α) : Proto α :=
  let sides := (dget p.states state).getD ([], [])
  let sides' :=
    if side = 0 then (dput sides.1 pid pkt, sides.2)
    else (sides.1, dput sides.2 pid pkt)
  ⟨dput p.states state sides'⟩

def Proto.get_packets {α : Type} (p : Proto α) (state : Nat) (side : Fin 2) :
    Option (PDict α) :=
  (dget p.states state).map (fun sides => if side = 0 then sides.1 else sides.2)

def Proto.based_on {α : Type} (p other : Proto α) : Proto α :=
  other.states.foldl
    (fun acc st =>
      let acc1 := st.2.1.foldl (fun a e => a.add_packet st.1 0 e.1 e.2) acc
      st.2.2.foldl (fun a e => a.add_packet st.1 1 e.1 e.2) acc1)
    p

/-- get_packets(state, side)[pid], with a missing state or missing id
modelled as none. -/
def Proto.lookup {α : Type} (p : Proto α) (state : Nat) (side : Fin 2)
    (pid : Nat) : Option α :=
  (p.get_packets state side).bind (fun d => dget d pid)

def Proto.applyAdds {α : Type} (p : Proto α) :
    List (Nat × Fin 2 × Nat × α) → Proto α
  | [] => p
  | o :: os => (p.add_packet o.1 o.2.1 o.2.2.1 o.2.2.2).applyAdds os

def DictWF {α : Type} (d : PDict α) : Prop := (d.map Prod.fst).Nodup

def ProtoWF {α : Type} (p : Proto α) : Prop :=
  DictWF p.states ∧ ∀ st ∈ p.states, DictWF st.2.1 ∧ DictWF st.2.2

theorem find?_cons_true {α : Type} (p : Nat × α → Bool) (e : Nat × α)
    (d : PDict α) (h : p e = true) : (e :: d).find? p = some e := by
  simp [List.find?, h]

theorem find?_cons_false {α : Type} (p : Nat × α → Bool) (e : Nat × α)
    (d : PDict α) (h : p e = false) : (e :: d).find? p = d.find? p := by
  simp [List.find?, h]

theorem find?_eraseP_ne {α : Type} (d : PDict α) (k k' : Nat) (h : k' ≠ k) :
    (d.eraseP (fun e => e.1 == k)).find? (fun e => e.1 == k')
      = d.find? (fun e => e.1 == k') := by
  induction d with
  | nil => rfl
  | cons e d ih =>
    by_cases he : e.1 = k
    · rw [List.eraseP_cons_of_pos (by simp [he])]
      rw [find?_cons_false _ e d (by simp [he]; omega)]
    · rw [List.eraseP_cons_of_neg (by simp [he])]
      by_cases he' : e.1 = k'
      · rw [find?_cons_true _ e _ (by simp [he']),
          find?_cons_true _ e d (by simp [he'])]
      · rw [find?_cons_false _ e _ (by simp [he']),
          find?_cons_false _ e d (by simp [he']), ih]

theorem dget_eraseP_ne {α : Type} (d : PDict α) (k k' : Nat) (h : k' ≠ k) :
    dget (d.eraseP (fun e => e.1 == k)) k' = dget d k' := by
  unfold dget
  rw [find?_eraseP_ne d k k' h]

theorem dget_dput_ne {α : Type} (d : PDict α) (k k' : Nat) (v : α) (h : k' ≠ k) :
    dget (dput d k v) k' = dget d k' := by
  rw [dput]
  unfold dget
  rw [find?_cons_false _ (k, v) _ (by simp; omega), find?_eraseP_ne d k k' h]

theorem dget_dput_eq {α : Type} (d : PDict α) (k : Nat) (v : α) :
    dget (dput d k v) k = some v := by
  rw [dput]
  unfold dget
  rw [find?_cons_true _ (k, v) _ (by simp)]
  rfl

theorem dget_nil {α : Type} (k : Nat) : dget ([] : PDict α) k = none := rfl

theorem dget_cons_ne {α : Type} (e : Nat × α) (d : PDict α) (k : Nat)
    (h : e.1 ≠ k) : dget (e :: d) k = dget d k := by
  unfold dget
  rw [find?_cons_false _ e d (by simp [h])]

theorem dget_cons_eq {α : Type} (e : Nat × α) (d : PDict α) :
    dget (e :: d) e.1 = some e.2 := by
  unfold dget
  rw [find?_cons_true _ e d (by simp)]
  rfl

theorem fin2_cases (side : Fin 2) : side = 0 ∨ side = 1 := by
  rcases side with ⟨v, hv⟩
  interval_cases v
  · exact Or.inl rfl
  · exact Or.inr rfl

theorem lookup_add_packet_ne {α : Type} (p : Proto α) (state : Nat) (side : Fin 2)
    (pid : Nat) (pkt : α) (state' : Nat) (side' : Fin 2) (pid' : Nat)
    (h : ¬ (state' = state ∧ side' = side ∧ pid' = pid)) :
    (p.add_packet state side pid pkt).lookup state' side' pid'
      = p.lookup state' side' pid' := by
  unfold Proto.lookup Proto.get_packets Proto.add_packet
  dsimp only
  by_cases hs : state' = state
  · subst hs
    rw [dget_dput_eq]
    rcases hst : dget p.states state' with _ | s <;>
      [simp only [Option.getD_none, Option.map_some', Option.some_bind,
        Option.map_none', Option.none_bind];
       simp only [Option.getD_some, Option.map_some', Option.some_bind]] <;>
      rcases fin2_cases side with rfl | rfl <;>
      rcases fin2_cases side' with rfl | rfl <;>
      simp_all [dget_dput_ne, dget_nil]
  · rw [dget_dput_ne _ _ _ _ hs]

theorem lookup_add_packet_eq {α : Type} (p : Proto α) (state : Nat) (side : Fin 2)
    (pid : Nat) (pkt : α) :
    (p.add_packet state side pid pkt).lookup state side pid = some pkt := by
  unfold Proto.lookup Proto.get_packets Proto.add_packet
  dsimp only
  rw [dget_dput_eq]
  simp only [Option.map_some', Option.some_bind]
  rcases fin2_cases side with rfl | rfl <;> simp [dget_dput_eq]

theorem lookup_foldl_add_ne {α : Type} (entries : PDict α) :
    ∀ (acc : Proto α) (st : Nat) (side : Fin 2) (s' : Nat) (side' : Fin 2)
      (pid' : Nat), ¬ (s' = st ∧ side' = side) →
      (entries.foldl (fun a e => a.add_packet st side e.1 e.2) acc).lookup
          s' side' pid'
        = acc.lookup s' side' pid' := by
  induction entries with
  | nil => intro acc st side s' side' pid' _; rfl
  | cons e es ih =>
    intro acc st side s' side' pid' h
    rw [List.foldl_cons, ih _ _ _ _ _ _ h, lookup_add_packet_ne]
    tauto

theorem lookup_foldl_add_same {α : Type} (entries : PDict α) :
    ∀ (acc : Proto α) (st : Nat) (side : Fin 2) (pid : Nat),
      DictWF entries →
      (entries.foldl (fun a e => a.add_packet st side e.1 e.2) acc).lookup
          st side pid
        = match dget entries pid with
          | some v => some v
          | none => acc.lookup st side pid := by
  induction entries with
  | nil => intro acc st side pid _; rfl
  | cons e es ih =>
    intro acc st side pid hwf
    have hnd := List.nodup_cons.mp hwf
    rw [List.foldl_cons, ih _ _ _ _ hnd.2]
    by_cases hpid : pid = e.1
    · subst hpid
      have hes : dget es e.1 = none := by
        unfold dget
        rw [List.find?_eq_none.mpr ?_]
        · rfl
        · intro x hx
          have hmem : x.1 ∈ es.map Prod.fst := List.mem_map_of_mem Prod.fst hx
          have hxe : x.1 ≠ e.1 := by
            intro hcon
            rw [hcon] at hmem
            exact hnd.1 hmem
          simp [hxe]
      rw [hes, dget_cons_eq]
      dsimp only
      rw [lookup_add_packet_eq]
    · rw [dget_cons_ne e es pid (by omega)]
      rcases hd : dget es pid with _ | v
      · dsimp only
        rw [lookup_add_packet_ne]
        tauto
      · rfl

theorem lookup_based_on_fold {α : Type} (L : PDict (PDict α × PDict α)) :
    ∀ (acc : Proto α) (s : Nat) (side : Fin 2) (pid : Nat),
      (L.map Prod.fst).Nodup →
      (∀ e ∈ L, DictWF e.2.1 ∧ DictWF e.2.2) →
      (L.foldl (fun a st =>
          st.2.2.foldl (fun a2 e => a2.add_packet st.1 1 e.1 e.2)
            (st.2.1.foldl (fun a1 e => a1.add_packet st.1 0 e.1 e.2) a)) acc).lookup
          s side pid
        = match L.find? (fun e => e.1 == s) with
          | some e =>
            (match dget (if side = 0 then e.2.1 else e.2.2) pid with
             | some v => some v
             | none => acc.lookup s side pid)
          | none => acc.lookup s side pid := by
  induction L with
  | nil => intro acc s side pid _ _; rfl
  | cons e L ih =>
    intro acc s side pid hnd hwf
    have hnd' := List.nodup_cons.mp hnd
    rw [List.foldl_cons, ih _ _ _ _ hnd'.2 (fun q hq => hwf q (by simp [hq]))]
    have hwfe := hwf e (by simp)
    by_cases he : e.1 = s
    · have hf1 : (e :: L).find? (fun x => x.1 == s) = some e :=
        find?_cons_true _ e L (by simp [he])
      have hf2 : L.find? (fun x => x.1 == s) = none := by
        rw [List.find?_eq_none]
        intro x hx
        have hmem : x.1 ∈ L.map Prod.fst := List.mem_map_of_mem Prod.fst hx
        have hxe : x.1 ≠ s := by
          intro hcon
          rw [hcon, ← he] at hmem
          exact hnd'.1 hmem
        simp [hxe]
      rw [hf1, hf2]
      dsimp only
      have hproc : (e.2.2.foldl (fun a2 x => a2.add_packet e.1 1 x.1 x.2)
            (e.2.1.foldl (fun a1 x => a1.add_packet e.1 0 x.1 x.2) acc)).lookup
            s side pid
          = match dget (if side = 0 then e.2.1 else e.2.2) pid with
            | some v => some v
            | none => acc.lookup s side pid := by
        subst he
        rcases fin2_cases side with rfl | rfl
        · rw [lookup_foldl_add_ne e.2.2
            (e.2.1.foldl (fun a1 x => a1.add_packet e.1 0 x.1 x.2) acc)
            e.1 1 e.1 0 pid (by simp)]
          rw [lookup_foldl_add_same e.2.1 acc e.1 0 pid hwfe.1]
          simp
        · rw [lookup_foldl_add_same e.2.2
            (e.2.1.foldl (fun a1 x => a1.add_packet e.1 0 x.1 x.2) acc)
            e.1 1 pid hwfe.2]
          rw [lookup_foldl_add_ne e.2.1 acc e.1 0 e.1 1 pid (by simp)]
          simp
      exact hproc
    · have hf : (e :: L).find? (fun x => x.1 == s) = L.find? (fun x => x.1 == s) :=
        find?_cons_false _ e L (by simp [he])
      rw [hf]
      have hproc : (e.2.2.foldl (fun a2 x => a2.add_packet e.1 1 x.1 x.2)
            (e.2.1.foldl (fun a1 x => a1.add_packet e.1 0 x.1 x.2) acc)).lookup
            s side pid
          = acc.lookup s side pid := by
        rw [lookup_foldl_add_ne e.2.2
            (e.2.1.foldl (fun a1 x => a1.add_packet e.1 0 x.1 x.2) acc)
            e.1 1 s side pid (by tauto)]
        rw [lookup_foldl_add_ne e.2.1 acc e.1 0 s side pid (by tauto)]
      rw [hproc]

theorem lookup_applyAdds_ne {α : Type} (ovs : List (Nat × Fin 2 × Nat × α)) :
    ∀ (q : Proto α) (state : Nat) (side : Fin 2) (pid : Nat),
      (∀ o ∈ ovs, ¬ (o.1 = state ∧ o.2.1 = side ∧ o.2.2.1 = pid)) →
      (q.applyAdds ovs).lookup state side pid = q.lookup state side pid := by
  induction ovs with
  | nil => intro q state side pid _; rfl
  | cons o os ih =>
    intro q state side pid h
    rw [Proto.applyAdds, ih _ _ _ _ (fun x hx => h x (by simp [hx]))]
    rw [lookup_add_packet_ne]
    have := h o (by simp)
    tauto

/-- C7: a protocol built fresh with based_on(parent) and then overridden
at other (state, direction, packet id) keys returns, at every key it does
not override, exactly the parent's schema (including agreement on
missing states and missing ids). -/
theorem c7_based_on_inheritance {α : Type} (parent : Proto α)
    (hwf : ProtoWF parent) (ovs : List (Nat × Fin 2 × Nat × α))
    (state : Nat) (side : Fin 2) (pid : Nat)
    (hno : ∀ o ∈ ovs, ¬ (o.1 = state ∧ o.2.1 = side ∧ o.2.2.1 = pid)) :
    ((Proto.based_on emptyProto parent).applyAdds ovs).lookup state side pid
      = parent.lookup state side pid := by
  rw [lookup_applyAdds_ne ovs _ state side pid hno]
  have hbase := lookup_based_on_fold parent.states emptyProto state side pid
    hwf.1 hwf.2
  have hb : (Proto.based_on emptyProto parent).lookup state side pid
      = (parent.states.foldl (fun a st =>
          st.2.2.foldl (fun a2 e => a2.add_packet st.1 1 e.1 e.2)
            (st.2.1.foldl (fun a1 e => a1.add_packet st.1 0 e.1 e.2) a))
          emptyProto).lookup state side pid := rfl
  rw [hb, hbase]
  rcases hf : parent.states.find? (fun e => e.1 == state) with _ | e
  · have hpl : parent.lookup state side pid = none := by
      unfold Proto.lookup Proto.get_packets
      have hdg : dget parent.states state = none := by
        unfold dget
        rw [hf]
        rfl
      rw [hdg]
      rfl
    rw [hf]
    dsimp only
    rw [hpl]
    rfl
  · have hpl : parent.lookup state side pid
        = dget (if side = 0 then e.2.1 else e.2.2) pid := by
      unfold Proto.lookup Proto.get_packets
      have hdg : dget parent.states state = some e.2 := by
        unfold dget
        rw [hf]
        rfl
      rw [hdg]
      rcases fin2_cases side with rfl | rfl <;> rfl
    rw [hf]
    dsimp only
    rw [hpl]
    rcases hd : dget (if side = 0 then e.2.1 else e.2.2) pid with _ | v
    · rfl
    · rfl

/-- Witness for C7: parent with one packet 42 at (0, side 0, id 0), one
override at a different id. -/
theorem c7_based_on_inheritance_witness :
    (ProtoWF (⟨[(0, ([(0, 42)], []))]⟩ : Proto Nat)
        ∧ (∀ o ∈ [((0 : Nat), ((0 : Fin 2), (1 : Nat), (7 : Nat)))],
            ¬ (o.1 = 0 ∧ o.2.1 = (0 : Fin 2) ∧ o.2.2.1 = 0)))
      ∧ ((Proto.based_on emptyProto ⟨[(0, ([(0, 42)], []))]⟩).applyAdds
            [((0 : Nat), ((0 : Fin 2), (1 : Nat), (7 : Nat)))]).lookup 0 0 0
          = (⟨[(0, ([(0, 42)], []))]⟩ : Proto Nat).lookup 0 0 0 := by
  have hwf : ProtoWF (⟨[(0, ([(0, 42)], []))]⟩ : Proto Nat) := by
    constructor
    · simp [DictWF]
    · intro st hst
      rw [List.mem_singleton] at hst
      subst hst
      exact ⟨by simp [DictWF], by simp [DictWF]⟩
  have hno : ∀ o ∈ [((0 : Nat), ((0 : Fin 2), (1 : Nat), (7 : Nat)))],
      ¬ (o.1 = 0 ∧ o.2.1 = (0 : Fin 2) ∧ o.2.2.1 = 0) := by
    intro o ho
    rw [List.mem_singleton] at ho
    subst ho
    simp
  exact ⟨⟨hwf, hno⟩,
    c7_based_on_inheritance ⟨[(0, ([(0, 42)], []))]⟩ hwf _ 0 0 0 hno⟩

/-! ### Endpoint.read (proto.py lines 1254-1260)

    def read(self, buf):
        raw = read_raw(buf, self._compression_threshold)
        if raw is None:
            return None, None
        pkt_id = read_varint(raw)
        return self._state_packets[pkt_id].parse(raw), raw

The current (state, direction) schema table _state_packets is a dict from
packet id to schema; indexing it with a missing id (or with the None that
read_varint returns on an empty body) raises KeyError, an uncaught fatal
error.  Schemas are modelled by their parse functions. -/

inductive EndpointRes (α : Type) where
  | needMore
  | protoError
  | ok (pkt : α) (raw : List Nat)

def endpoint_read {α : Type} (state_packets : PDict (List Nat → α))
    (dec : List Nat → Option (List Nat)) (b : ReadBuffer) (t : Option Nat) :
    EndpointRes α × ReadBuffer :=
  match read_raw dec b t with
  | .needMore b' => (.needMore, b')
  | .protoError => (.protoError, b)
  | .packet body b' =>
    match read_varint body with
    | none => (.protoError, b')
    | some (pkt_id, k) =>
      match dget state_packets pkt_id with
      | none => (.protoError, b')
      | some parse => (.ok (parse (body.drop k)) (body.drop k), b')

/-- C8: whenever Endpoint.read extracts a complete frame whose leading
varint packet id has no schema in the current (state, direction) table,
it raises a fatal protocol error (KeyError): it neither returns a packet,
nor the (None, None) need-more-data result, nor silently skips the
frame. -/
theorem c8_unknown_packet_id {α : Type} (state_packets : PDict (List Nat → α))
    (dec : List Nat → Option (List Nat)) (b : ReadBuffer) (t : Option Nat)
    (body : List Nat) (b' : ReadBuffer) (pkt_id k : Nat)
    (hraw : read_raw dec b t = .packet body b')
    (hid : read_varint body = some (pkt_id, k))
    (hmiss : dget state_packets pkt_id = none) :
    (endpoint_read state_packets dec b t).1
      = (EndpointRes.protoError : EndpointRes α) := by
  unfold endpoint_read
  rw [hraw]
  dsimp only
  rw [hid]
  dsimp only
  rw [hmiss]

/-- Witness for C8: a one-byte uncompressed frame with packet id 5 and an
empty schema table. -/
theorem c8_unknown_packet_id_witness :
    (read_raw (fun _ => none) ⟨[1, 5], 0⟩ none
          = RawResult.packet [5] ⟨[1, 5], 2⟩
        ∧ read_varint [5] = some (5, 1)
        ∧ dget ([] : PDict (List Nat → Nat)) 5 = none)
      ∧ (endpoint_read ([] : PDict (List Nat → Nat)) (fun _ => none)
            ⟨[1, 5], 0⟩ none).1 = EndpointRes.protoError := by
  have hraw : read_raw (fun _ => none) ⟨[1, 5], 0⟩ none
      = RawResult.packet [5] ⟨[1, 5], 2⟩ := by decide
  have hid : read_varint [5] = some (5, 1) := by decide
  exact ⟨⟨hraw, hid, rfl⟩,
    c8_unknown_packet_id [] (fun _ => none) ⟨[1, 5], 0⟩ none [5] ⟨[1, 5], 2⟩
      5 1 hraw hid rfl⟩

/-! ### Metadata codec (proto.py lines 425-459) and its value codecs

    def make_metadata_pair(readers, writers):
        def read_metadata(b):
            meta = {}
            while 1:
                item = read_ubyte(b)
                if item == 0x7f:
                    return meta
                meta_type = item >> 5
                meta[item & 0x1f] = meta_type, readers[meta_type](b)
        def write_metadata(b, meta):
            for index, (meta_type, meta_value) in meta.iteritems():
                write_ubyte(b, meta_type << 5 | index & 0x1f)
                writers[meta_type](b, meta_value)
            write_ubyte(b, 0x7f)
        return read_metadata, write_metadata

The legacy tables (META_READERS/META_WRITERS) map type 0..6 to
byte/short/int/float/string/slot/vector.  Metadata values are embedded as
a sum type whose tag is the wire type (the dict stores (type, value)
pairs; a mismatched tag would make the writer throw, so the tag is
carried by the value).  A metadata mapping is the list of its
(index, (type, value)) entries in iteration order; the reader's dict is
the list of entries in read order.  Float values are modelled by their
4-byte big-endian IEEE wire image, on which pack/unpack is the
identity. -/

structure Slot where
  item_id : Int
  count : Int
  damage : Int
  nbt : Option (List Nat)
deriving DecidableEq

inductive MetaValue where
  | vbyte (v : Int)
  | vshort (v : Int)
  | vint (v : Int)
  | vfloat (bytes : List Nat)
  | vstring (s : List Nat)
  | vslot (s : Option Slot)
  | vvector (x y z : Int)
deriving DecidableEq

def metaType : MetaValue → Nat
  | .vbyte _ => 0
  | .vshort _ => 1
  | .vint _ => 2
  | .vfloat _ => 3
  | .vstring _ => 4
  | .vslot _ => 5
  | .vvector _ _ _ => 6

/-- pack(">b", v): raises outside [-128, 128); the wire byte is the
two's-complement residue. -/
def write_byte (v : Int) : Option (List Nat) :=
  if -128 ≤ v ∧ v < 128 then some [(v % 256).toNat] else none

def write_short (v : Int) : Option (List Nat) :=
  if -32768 ≤ v ∧ v < 32768 then some (beBytes 2 (v % 65536).toNat) else none

def write_int (v : Int) : Option (List Nat) :=
  if -2147483648 ≤ v ∧ v < 2147483648 then
    some (beBytes 4 (v % 4294967296).toNat)
  else none

def write_float_b (bs : List Nat) : Option (List Nat) :=
  if bs.length = 4 then some bs else none

def write_slot (s : Option Slot) : Option (List Nat) :=
  match s with
  | none => write_short (-1)
  | some sl => do
    let b1 ← write_short sl.item_id
    let b2 ← write_byte sl.count
    let b3 ← write_short sl.damage
    match sl.nbt with
    | some nbt => do
      let b4 ← write_short (nbt.length : Int)
      pure (b1 ++ b2 ++ b3 ++ b4 ++ nbt)
    | none => do
      let b4 ← write_short (-1)
      pure (b1 ++ b2 ++ b3 ++ b4)

def write_vector (x y z : Int) : Option (List Nat) := do
  let b1 ← write_int x
  let b2 ← write_int y
  let b3 ← write_int z
  pure (b1 ++ b2 ++ b3)

def read_byte : List Nat → Option (Int × List Nat)
  | [] => none
  | b :: rest => some (if 128 ≤ b then (b : Int) - 256 else (b : Int), rest)

def read_short : List Nat → Option (Int × List Nat)
  | b0 :: b1 :: rest =>
    some (if 32768 ≤ b0 * 256 + b1 then ((b0 * 256 + b1 : Nat) : Int) - 65536
          else ((b0 * 256 + b1 : Nat) : Int), rest)
  | _ => none

def read_int : List Nat → Option (Int × List Nat)
  | b0 :: b1 :: b2 :: b3 :: rest =>
    some (if 2147483648 ≤ ((b0 * 256 + b1) * 256 + b2) * 256 + b3 then
            ((((b0 * 256 + b1) * 256 + b2) * 256 + b3 : Nat) : Int) - 4294967296
          else ((((b0 * 256 + b1) * 256 + b2) * 256 + b3 : Nat) : Int), rest)
  | _ => none

def read_float_b : List Nat → Option (List Nat × List Nat)
  | b0 :: b1 :: b2 :: b3 :: rest => some ([b0, b1, b2, b3], rest)
  | _ => none

def read_string_b (l : List Nat) : Option (List Nat × List Nat) :=
  match read_varint l with
  | none => none
  | some (len, k) =>
    let out := (l.drop k).take len
    some (out, l.drop (k + out.length))

def read_slot (l : List Nat) : Option (Option Slot × List Nat) :=
  match read_short l with
  | none => none
  | some (item_id, r1) =>
    if item_id = -1 then some (none, r1)
    else
      match read_byte r1 with
      | none => none
      | some (count, r2) =>
        match read_short r2 with
        | none => none
        | some (damage, r3) =>
          match read_short r3 with
          | none => none
          | some (nbt_size, r4) =>
            if nbt_size ≠ -1 then
              let nbt := if nbt_size < 0 then r4 else r4.take nbt_size.toNat
              some (some ⟨item_id, count, damage, some nbt⟩, r4.drop nbt.length)
            else
              some (some ⟨item_id, count, damage, none⟩, r4)

def read_vector (l : List Nat) : Option ((Int × Int × Int) × List Nat) :=
  match read_int l with
  | none => none
  | some (x, r1) =>
    match read_int r1 with
    | none => none
    | some (y, r2) =>
      match read_int r2 with
      | none => none
      | some (z, r3) => some ((x, y, z), r3)

/-- readers[meta_type]: a type outside the table raises KeyError. -/
def META_READ : Nat → List Nat → Option (MetaValue × List Nat)
  | 0, l => (read_byte l).map (fun r => (.vbyte r.1, r.2))
  | 1, l => (read_short l).map (fun r => (.vshort r.1, r.2))
  | 2, l => (read_int l).map (fun r => (.vint r.1, r.2))
  | 3, l => (read_float_b l).map (fun r => (.vfloat r.1, r.2))
  | 4, l => (read_string_b l).map (fun r => (.vstring r.1, r.2))
  | 5, l => (read_slot l).map (fun r => (.vslot r.1, r.2))
  | 6, l => (read_vector l).map (fun r => (.vvector r.1.1 r.1.2.1 r.1.2.2, r.2))
  | _, _ => none

def META_WRITE : MetaValue → Option (List Nat)
  | .vbyte v => write_byte v
  | .vshort v => write_short v
  | .vint v => write_int v
  | .vfloat bs => write_float_b bs
  | .vstring s => some (write_string s)
  | .vslot s => write_slot s
  | .vvector x y z => write_vector x y z

def write_meta_entries : List (Nat × MetaValue) → Option (List Nat)
  | [] => some []
  | (index, v) :: rest => do
    let vb ← META_WRITE v
    let rb ← write_meta_entries rest
    pure (((metaType v <<< 5) ||| (index &&& 0x1f)) :: vb ++ rb)

def write_metadata (m : List (Nat × MetaValue)) : Option (List Nat) :=
  (write_meta_entries m).map (fun bs => bs ++ [0x7f])

theorem read_byte_le (l : List Nat) (v : Int) (r : List Nat)
    (h : read_byte l = some (v, r)) : r.length ≤ l.length := by
  match l with
  | [] => rw [read_byte] at h; cases h
  | b :: rest =>
    rw [read_byte] at h
    cases h
    simp

theorem read_short_le (l : List Nat) (v : Int) (r : List Nat)
    (h : read_short l = some (v, r)) : r.length ≤ l.length := by
  match l with
  | [] => simp [read_short] at h
  | [b0] => simp [read_short] at h
  | b0 :: b1 :: rest =>
    rw [read_short] at h
    cases h
    simp
    omega

theorem read_int_le (l : List Nat) (v : Int) (r : List Nat)
    (h : read_int l = some (v, r)) : r.length ≤ l.length := by
  match l with
  | [] => simp [read_int] at h
  | [b0] => simp [read_int] at h
  | [b0, b1] => simp [read_int] at h
  | [b0, b1, b2] => simp [read_int] at h
  | b0 :: b1 :: b2 :: b3 :: rest =>
    rw [read_int] at h
    cases h
    simp
    omega

theorem META_READ_le (t : Nat) (l : List Nat) (v : MetaValue) (r : List Nat)
    (h : META_READ t l = some (v, r)) : r.length ≤ l.length := by
  match t, h with
  | 0, h =>
    rw [META_READ] at h
    match hb : read_byte l with
    | none => rw [hb] at h; cases h
    | some (w, r1) =>
      rw [hb] at h
      simp only [Option.map_some'] at h
      cases h
      exact read_byte_le l _ _ hb
  | 1, h =>
    rw [META_READ] at h
    match hb : read_short l with
    | none => rw [hb] at h; cases h
    | some (w, r1) =>
      rw [hb] at h
      simp only [Option.map_some'] at h
      cases h
      exact read_short_le l _ _ hb
  | 2, h =>
    rw [META_READ] at h
    match hb : read_int l with
    | none => rw [hb] at h; cases h
    | some (w, r1) =>
      rw [hb] at h
      simp only [Option.map_some'] at h
      cases h
      exact read_int_le l _ _ hb
  | 3, h =>
    rw [META_READ] at h
    match l, h with
    | b0 :: b1 :: b2 :: b3 :: rest, h =>
      rw [read_float_b] at h
      simp only [Option.map_some'] at h
      cases h
      simp
      omega
  | 4, h =>
    rw [META_READ] at h
    rw [read_string_b] at h
    match hv : read_varint l with
    | none => rw [hv] at h; cases h
    | some (len, k) =>
      rw [hv] at h
      simp only [Option.map_some'] at h
      cases h
      simp [List.length_drop]
  | 5, h =>
    rw [META_READ] at h
    rw [read_slot] at h
    match h1 : read_short l with
    | none => rw [h1] at h; cases h
    | some (item_id, r1) =>
      have hle1 := read_short_le l item_id r1 h1
      rw [h1] at h
      dsimp only at h
      by_cases hid : item_id = -1
      · rw [if_pos hid] at h
        simp only [Option.map_some'] at h
        cases h
        exact hle1
      · rw [if_neg hid] at h
        match h2 : read_byte r1 with
        | none => rw [h2] at h; cases h
        | some (count, r2) =>
          have hle2 := read_byte_le r1 count r2 h2
          rw [h2] at h
          dsimp only at h
          match h3 : read_short r2 with
          | none => rw [h3] at h; cases h
          | some (damage, r3) =>
            have hle3 := read_short_le r2 damage r3 h3
            rw [h3] at h
            dsimp only at h
            match h4 : read_short r3 with
            | none => rw [h4] at h; cases h
            | some (nbt_size, r4) =>
              have hle4 := read_short_le r3 nbt_size r4 h4
              rw [h4] at h
              dsimp only at h
              by_cases hns : nbt_size ≠ -1
              · rw [if_pos hns] at h
                simp only [Option.map_some'] at h
                cases h
                simp [List.length_drop]
                omega
              · rw [if_neg hns] at h
                simp only [Option.map_some'] at h
                cases h
                omega
  | 6, h =>
    rw [META_READ] at h
    rw [read_vector] at h
    match h1 : read_int l with
    | none => rw [h1] at h; cases h
    | some (x, r1) =>
      have hle1 := read_int_le l x r1 h1
      rw [h1] at h
      dsimp only at h
      match h2 : read_int r1 with
      | none => rw [h2] at h; cases h
      | some (y, r2) =>
        have hle2 := read_int_le r1 y r2 h2
        rw [h2] at h
        dsimp only at h
        match h3 : read_int r2 with
        | none => rw [h3] at h; cases h
        | some (z, r3) =>
          have hle3 := read_int_le r2 z r3 h3
          rw [h3] at h
          simp only [Option.map_some'] at h
          cases h
          omega

theorem and_255_eq_mod (v : Nat) : v &&& 255 = v % 256 :=
  Nat.and_pow_two_sub_one_eq_mod v 8

theorem shiftRight_8_eq_div (v : Nat) : v >>> 8 = v / 256 :=
  Nat.shiftRight_eq_div_pow v 8

theorem beBytes_two (n : Nat) : beBytes 2 n = [(n >>> 8) &&& 255, n &&& 255] := rfl

theorem beBytes_four (n : Nat) :
    beBytes 4 n =
      [((n >>> 8) >>> 8) >>> 8 &&& 255, (n >>> 8) >>> 8 &&& 255,
       (n >>> 8) &&& 255, n &&& 255] := rfl

theorem read_write_byte (v : Int) (bs rest : List Nat)
    (h : write_byte v = some bs) :
    read_byte (bs ++ rest) = some (v, rest) := by
  rw [write_byte] at h
  by_cases hr : -128 ≤ v ∧ v < 128
  · rw [if_pos hr] at h
    cases h
    simp only [List.cons_append, List.nil_append]
    rw [read_byte]
    simp only [Option.some.injEq, Prod.mk.injEq, and_true]
    split_ifs with hc <;> omega
  · rw [if_neg hr] at h
    cases h

theorem read_write_short (v : Int) (bs rest : List Nat)
    (h : write_short v = some bs) :
    read_short (bs ++ rest) = some (v, rest) := by
  rw [write_short] at h
  by_cases hr : -32768 ≤ v ∧ v < 32768
  · rw [if_pos hr] at h
    cases h
    rw [beBytes_two]
    simp only [List.cons_append, List.nil_append]
    rw [read_short]
    simp only [Option.some.injEq, Prod.mk.injEq, and_true]
    rw [and_255_eq_mod, and_255_eq_mod, shiftRight_8_eq_div]
    split_ifs with hc <;> omega
  · rw [if_neg hr] at h
    cases h

theorem read_write_int (v : Int) (bs rest : List Nat)
    (h : write_int v = some bs) :
    read_int (bs ++ rest) = some (v, rest) := by
  rw [write_int] at h
  by_cases hr : -2147483648 ≤ v ∧ v < 2147483648
  · rw [if_pos hr] at h
    cases h
    rw [beBytes_four]
    simp only [List.cons_append, List.nil_append]
    rw [read_int]
    simp only [Option.some.injEq, Prod.mk.injEq, and_true]
    rw [and_255_eq_mod, and_255_eq_mod, and_255_eq_mod, and_255_eq_mod,
      shiftRight_8_eq_div, shiftRight_8_eq_div, shiftRight_8_eq_div]
    split_ifs with hc <;> omega
  · rw [if_neg hr] at h
    cases h

theorem read_write_float (bs0 bs rest : List Nat)
    (h : write_float_b bs0 = some bs) :
    read_float_b (bs ++ rest) = some (bs0, rest) := by
  rw [write_float_b] at h
  by_cases hl : bs0.length = 4
  · rw [if_pos hl] at h
    cases h
    rcases bs0 with _ | ⟨b0, bs0⟩
    · simp at hl
    rcases bs0 with _ | ⟨b1, bs0⟩
    · simp at hl
    rcases bs0 with _ | ⟨b2, bs0⟩
    · simp at hl
    rcases bs0 with _ | ⟨b3, bs0⟩
    · simp at hl
    rcases bs0 with _ | ⟨b4, bs0⟩
    · rfl
    · simp only [List.length_cons] at hl
      omega
  · rw [if_neg hl] at h
    cases h

theorem drop_size_varint (v : Nat) (rest : List Nat) :
    (write_varint v ++ rest).drop (size_varint v) = rest := by
  rw [← write_varint_length, List.drop_left]

theorem read_write_string (s rest : List Nat) :
    read_string_b (write_string s ++ rest) = some (s, rest) := by
  rw [write_string, read_string_b, List.append_assoc, read_varint_of_write]
  dsimp only
  rw [drop_size_varint, List.take_left]
  rw [Option.some.injEq, Prod.mk.injEq]
  refine ⟨rfl, ?_⟩
  rw [← List.append_assoc, ← write_varint_length]
  have hlen : (write_varint s.length).length + s.length
      = (write_varint s.length ++ s).length := (List.length_append _ _).symm
  rw [hlen]
  exact List.drop_left _ _

theorem obind_some {A B : Type} (a : A) (f : A → Option B) :
    (some a >>= f) = f a := rfl

theorem read_write_slot (s : Option Slot) (bs rest : List Nat)
    (hid : ∀ sl, s = some sl → sl.item_id ≠ -1)
    (h : write_slot s = some bs) :
    read_slot (bs ++ rest) = some (s, rest) := by
  match s with
  | none =>
    rw [write_slot] at h
    rw [read_slot, read_write_short (-1) bs rest h]
    rfl
  | some sl =>
    rw [write_slot] at h
    match h1 : write_short sl.item_id with
    | none => rw [h1] at h; simp at h
    | some b1 =>
      rw [h1, obind_some] at h
      match h2 : write_byte sl.count with
      | none => rw [h2] at h; simp at h
      | some b2 =>
        rw [h2, obind_some] at h
        match h3 : write_short sl.damage with
        | none => rw [h3] at h; simp at h
        | some b3 =>
          rw [h3, obind_some] at h
          match hnbt : sl.nbt with
          | some nbt =>
            rw [hnbt] at h
            dsimp only at h
            match h4 : write_short (nbt.length : Int) with
            | none => rw [h4] at h; simp at h
            | some b4 =>
              rw [h4, obind_some] at h
              simp only [Option.pure_def, Option.some.injEq] at h
              subst h
              simp only [List.append_assoc]
              rw [read_slot, read_write_short _ _ _ h1]
              dsimp only
              rw [if_neg (hid sl rfl)]
              rw [read_write_byte _ _ _ h2]
              dsimp only
              rw [read_write_short _ _ _ h3]
              dsimp only
              rw [read_write_short _ _ _ h4]
              dsimp only
              rw [if_pos (by omega : ¬(nbt.length : Int) = -1)]
              rw [if_neg (by omega : ¬(nbt.length : Int) < 0)]
              rw [Int.toNat_natCast, List.take_left, List.drop_left]
              rw [Option.some.injEq, Prod.mk.injEq]
              refine ⟨?_, rfl⟩
              rw [Option.some.injEq]
              rw [← hnbt]
          | none =>
            rw [hnbt] at h
            dsimp only at h
            match h4 : write_short (-1 : Int) with
            | none => rw [h4] at h; simp at h
            | some b4 =>
              rw [h4, obind_some] at h
              simp only [Option.pure_def, Option.some.injEq] at h
              subst h
              simp only [List.append_assoc]
              rw [read_slot, read_write_short _ _ _ h1]
              dsimp only
              rw [if_neg (hid sl rfl)]
              rw [read_write_byte _ _ _ h2]
              dsimp only
              rw [read_write_short _ _ _ h3]
              dsimp only
              rw [read_write_short _ _ _ h4]
              dsimp only
              rw [if_neg (by omega : ¬(-1 : Int) ≠ -1)]
              rw [Option.some.injEq, Prod.mk.injEq]
              refine ⟨?_, rfl⟩
              rw [Option.some.injEq]
              rw [← hnbt]

theorem read_write_vector (x y z : Int) (bs rest : List Nat)
    (h : write_vector x y z = some bs) :
    read_vector (bs ++ rest) = some ((x, y, z), rest) := by
  rw [write_vector] at h
  match h1 : write_int x with
  | none => rw [h1] at h; simp at h
  | some b1 =>
    rw [h1, obind_some] at h
    match h2 : write_int y with
    | none => rw [h2] at h; simp at h
    | some b2 =>
      rw [h2, obind_some] at h
      match h3 : write_int z with
      | none => rw [h3] at h; simp at h
      | some b3 =>
        rw [h3, obind_some] at h
        simp only [Option.pure_def, Option.some.injEq] at h
        subst h
        simp only [List.append_assoc]
        rw [read_vector, read_write_int _ _ _ h1]
        dsimp only
        rw [read_write_int _ _ _ h2]
        dsimp only
        rw [read_write_int _ _ _ h3]

def read_metadata : List Nat → Option (List (Nat × MetaValue) × List Nat)
  | [] => none
  | item :: rest =>
    if item = 0x7f then some ([], rest)
    else
      match h : META_READ (item >>> 5) rest with
      | none => none
      | some (v, rest') =>
        match read_metadata rest' with
        | none => none
        | some (entries, final) => some ((item &&& 0x1f, v) :: entries, final)
termination_by l => l.length
decreasing_by
  have hle := META_READ_le _ _ _ _ h
  simp only [List.length_cons]
  omega

/-- The header byte the writer emits for one entry. -/
def metaHeader (e : Nat × MetaValue) : Nat :=
  (metaType e.2 <<< 5) ||| (e.1 &&& 0x1f)

/-- Value well-formedness: ranges the fixed-width packers accept, a
4-byte float image, and (for a present slot) item_id ≠ -1 — the wire
encodes item_id -1 as the empty slot, so a present slot with that id
cannot round-trip. -/
def SlotWFb : Option Slot → Bool
  | none => true
  | some sl =>
    decide (sl.item_id ≠ -1) && decide (-32768 ≤ sl.item_id)
      && decide (sl.item_id < 32768)
      && decide (-128 ≤ sl.count) && decide (sl.count < 128)
      && decide (-32768 ≤ sl.damage) && decide (sl.damage < 32768)
      && (match sl.nbt with
          | none => true
          | some nbt => decide ((nbt.length : Int) < 32768))

def MetaValueWFb : MetaValue → Bool
  | .vbyte v => decide (-128 ≤ v) && decide (v < 128)
  | .vshort v => decide (-32768 ≤ v) && decide (v < 32768)
  | .vint v => decide (-2147483648 ≤ v) && decide (v < 2147483648)
  | .vfloat bs => decide (bs.length = 4)
  | .vstring _ => true
  | .vslot s => SlotWFb s
  | .vvector x y z =>
    decide (-2147483648 ≤ x) && decide (x < 2147483648)
      && decide (-2147483648 ≤ y) && decide (y < 2147483648)
      && decide (-2147483648 ≤ z) && decide (z < 2147483648)

/-- A metadata mapping: distinct indices (it is a dict), indices below
32 (index & 0x1f must not alias), and writable values. -/
def MetaWF (m : List (Nat × MetaValue)) : Prop :=
  (m.map Prod.fst).Nodup ∧ ∀ e ∈ m, e.1 < 32 ∧ MetaValueWFb e.2 = true

theorem metaType_le (v : MetaValue) : metaType v ≤ 6 := by
  cases v <;> (dsimp only [metaType]; decide)

theorem header_shift : ∀ t ≤ 6, ∀ i < 32, (t <<< 5 ||| (i &&& 31)) >>> 5 = t := by
  decide

theorem header_and : ∀ t ≤ 6, ∀ i < 32, (t <<< 5 ||| (i &&& 31)) &&& 31 = i := by
  decide

theorem header_eq_127 : ∀ t ≤ 6, ∀ i < 32,
    ((t <<< 5 ||| (i &&& 31)) = 127 ↔ t = 3 ∧ i = 31) := by
  decide

theorem META_WRITE_some (v : MetaValue) (hwf : MetaValueWFb v = true) :
    ∃ bs, META_WRITE v = some bs := by
  match v with
  | .vbyte w =>
    simp only [MetaValueWFb, Bool.and_eq_true, decide_eq_true_eq] at hwf
    exact ⟨_, by rw [META_WRITE, write_byte, if_pos hwf]⟩
  | .vshort w =>
    simp only [MetaValueWFb, Bool.and_eq_true, decide_eq_true_eq] at hwf
    exact ⟨_, by rw [META_WRITE, write_short, if_pos hwf]⟩
  | .vint w =>
    simp only [MetaValueWFb, Bool.and_eq_true, decide_eq_true_eq] at hwf
    exact ⟨_, by rw [META_WRITE, write_int, if_pos hwf]⟩
  | .vfloat bs =>
    simp only [MetaValueWFb, decide_eq_true_eq] at hwf
    exact ⟨_, by rw [META_WRITE, write_float_b, if_pos hwf]⟩
  | .vstring s => exact ⟨_, by rw [META_WRITE]⟩
  | .vslot s =>
    match s with
    | none =>
      exact ⟨_, by rw [META_WRITE, write_slot, write_short, if_pos (by norm_num)]⟩
    | some sl =>
      simp only [MetaValueWFb, SlotWFb, Bool.and_eq_true, decide_eq_true_eq] at hwf
      obtain ⟨⟨⟨⟨⟨⟨⟨hne, hlo⟩, hhi⟩, hclo⟩, chhi⟩, hdlo⟩, hdhi⟩, hnbt⟩ := hwf
      refine Option.isSome_iff_exists.mp ?_
      rw [META_WRITE, write_slot]
      rw [write_short, if_pos ⟨hlo, hhi⟩, obind_some]
      rw [write_byte, if_pos ⟨hclo, chhi⟩, obind_some]
      rw [write_short, if_pos ⟨hdlo, hdhi⟩, obind_some]
      match hn : sl.nbt with
      | none =>
        dsimp only
        rw [write_short, if_pos (by norm_num : (-32768 : Int) ≤ -1 ∧ (-1 : Int) < 32768), obind_some]
        exact rfl
      | some nbt =>
        rw [hn] at hnbt
        simp only [decide_eq_true_eq] at hnbt
        dsimp only
        rw [write_short, if_pos ⟨by omega, hnbt⟩, obind_some]
        exact rfl
  | .vvector x y z =>
    simp only [MetaValueWFb, Bool.and_eq_true, decide_eq_true_eq] at hwf
    obtain ⟨⟨⟨⟨⟨hx1, hx2⟩, hy1⟩, hy2⟩, hz1⟩, hz2⟩ := hwf
    refine Option.isSome_iff_exists.mp ?_
    rw [META_WRITE, write_vector]
    rw [write_int, if_pos ⟨hx1, hx2⟩, obind_some]
    rw [write_int, if_pos ⟨hy1, hy2⟩, obind_some]
    rw [write_int, if_pos ⟨hz1, hz2⟩, obind_some]
    exact rfl

theorem read_META_WRITE (v : MetaValue) (bs rest : List Nat)
    (hwf : MetaValueWFb v = true) (h : META_WRITE v = some bs) :
    META_READ (metaType v) (bs ++ rest) = some (v, rest) := by
  match v with
  | .vbyte w =>
    rw [META_WRITE] at h
    rw [metaType, META_READ, read_write_byte _ _ _ h]
    rfl
  | .vshort w =>
    rw [META_WRITE] at h
    rw [metaType, META_READ, read_write_short _ _ _ h]
    rfl
  | .vint w =>
    rw [META_WRITE] at h
    rw [metaType, META_READ, read_write_int _ _ _ h]
    rfl
  | .vfloat bs0 =>
    rw [META_WRITE] at h
    rw [metaType, META_READ, read_write_float _ _ _ h]
    rfl
  | .vstring s =>
    rw [META_WRITE, Option.some.injEq] at h
    subst h
    rw [metaType, META_READ, read_write_string]
    rfl
  | .vslot s =>
    rw [META_WRITE] at h
    have hid : ∀ sl, s = some sl → sl.item_id ≠ -1 := by
      intro sl hs
      subst hs
      simp only [MetaValueWFb, SlotWFb, Bool.and_eq_true, decide_eq_true_eq] at hwf
      exact hwf.1.1.1.1.1.1.1
    rw [metaType, META_READ, read_write_slot _ _ _ hid h]
    rfl
  | .vvector x y z =>
    rw [META_WRITE] at h
    rw [metaType, META_READ, read_write_vector _ _ _ _ _ h]
    rfl

theorem write_meta_entries_some (m : List (Nat × MetaValue))
    (hwf : ∀ e ∈ m, MetaValueWFb e.2 = true) :
    ∃ bs, write_meta_entries m = some bs := by
  induction m with
  | nil => exact ⟨[], rfl⟩
  | cons e tl ih =>
    obtain ⟨i, v⟩ := e
    obtain ⟨vb, hvb⟩ := META_WRITE_some v (hwf (i, v) (by simp))
    obtain ⟨rb, hrb⟩ := ih (fun e he => hwf e (List.mem_cons_of_mem _ he))
    exact ⟨_, by rw [write_meta_entries, hvb, obind_some, hrb, obind_some]; rfl⟩

theorem read_metadata_cons (item : Nat) (l : List Nat) :
    read_metadata (item :: l) =
      if item = 0x7f then some ([], l)
      else
        match META_READ (item >>> 5) l with
        | none => none
        | some (v, rest') =>
          match read_metadata rest' with
          | none => none
          | some (entries, final) => some ((item &&& 0x1f, v) :: entries, final) := by
  rw [read_metadata]
  by_cases hi : item = 0x7f
  · rw [if_pos hi, if_pos hi]
  · rw [if_neg hi, if_neg hi]
    cases hm : META_READ (item >>> 5) l with
    | none => rfl
    | some p => rfl

theorem read_write_meta_entries (m : List (Nat × MetaValue)) :
    ∀ bs, (∀ e ∈ m, e.1 < 32 ∧ MetaValueWFb e.2 = true) →
    (∀ e ∈ m, metaHeader e ≠ 0x7f) →
    write_meta_entries m = some bs →
    ∀ rest, read_metadata (bs ++ 0x7f :: rest) = some (m, rest) := by
  induction m with
  | nil =>
    intro bs _ _ hw rest
    rw [write_meta_entries, Option.some.injEq] at hw
    subst hw
    rw [List.nil_append, read_metadata, if_pos rfl]
  | cons e tl ih =>
    intro bs hwf hgood hw rest
    obtain ⟨i, v⟩ := e
    have hi : i < 32 := (hwf (i, v) (by simp)).1
    have hv : MetaValueWFb v = true := (hwf (i, v) (by simp)).2
    rw [write_meta_entries] at hw
    cases hvb : META_WRITE v with
    | none => rw [hvb] at hw; simp at hw
    | some vb =>
      rw [hvb, obind_some] at hw
      cases hrb : write_meta_entries tl with
      | none => rw [hrb] at hw; simp at hw
      | some rb =>
        rw [hrb, obind_some, Option.pure_def, Option.some.injEq] at hw
        subst hw
        have hne : (metaType v <<< 5) ||| (i &&& 0x1f) ≠ 0x7f :=
          hgood (i, v) (by simp)
        have hread : META_READ ((metaType v <<< 5 ||| (i &&& 0x1f)) >>> 5)
            (vb ++ (rb ++ 0x7f :: rest)) = some (v, rb ++ 0x7f :: rest) := by
          rw [header_shift (metaType v) (metaType_le v) i hi]
          exact read_META_WRITE v vb _ hv hvb
        rw [List.append_assoc, List.cons_append, read_metadata_cons, if_neg hne, hread]
        dsimp only
        rw [ih rb (fun e he => hwf e (List.mem_cons_of_mem _ he))
          (fun e he => hgood e (List.mem_cons_of_mem _ he)) hrb rest]
        dsimp only
        rw [Option.some.injEq, Prod.mk.injEq]
        exact ⟨by rw [header_and (metaType v) (metaType_le v) i hi], rfl⟩

theorem write_meta_entries_append (m1 m2 : List (Nat × MetaValue))
    (b2 : List Nat) (h2 : write_meta_entries m2 = some b2) :
    ∀ b1, write_meta_entries m1 = some b1 →
      write_meta_entries (m1 ++ m2) = some (b1 ++ b2) := by
  induction m1 with
  | nil =>
    intro b1 h1
    rw [write_meta_entries, Option.some.injEq] at h1
    subst h1
    rw [List.nil_append, List.nil_append]
    exact h2
  | cons a tl ih =>
    intro b1 h1
    obtain ⟨i, v⟩ := a
    rw [write_meta_entries] at h1
    cases hvb : META_WRITE v with
    | none => rw [hvb] at h1; simp at h1
    | some vb =>
      rw [hvb, obind_some] at h1
      cases hrb : write_meta_entries tl with
      | none => rw [hrb] at h1; simp at h1
      | some rb =>
        rw [hrb, obind_some, Option.pure_def, Option.some.injEq] at h1
        subst h1
        rw [List.cons_append, write_meta_entries, hvb, obind_some, ih rb hrb,
          obind_some, Option.pure_def, Option.some.injEq]
        exact (List.append_assoc _ _ _).symm

theorem exists_first_bad (m : List (Nat × MetaValue))
    (hm : ¬ ∀ e ∈ m, metaHeader e ≠ 0x7f) :
    ∃ m1 e m2, m = m1 ++ e :: m2 ∧ (∀ x ∈ m1, metaHeader x ≠ 0x7f)
      ∧ metaHeader e = 0x7f := by
  induction m with
  | nil => exact absurd (by simp) hm
  | cons a tl ih =>
    by_cases ha : metaHeader a = 0x7f
    · exact ⟨[], a, tl, rfl, by simp, ha⟩
    · have htl : ¬ ∀ e ∈ tl, metaHeader e ≠ 0x7f := by
        intro hall
        refine hm ?_
        intro e he
        rcases List.mem_cons.mp he with rfl | he'
        · exact ha
        · exact hall e he'
      obtain ⟨m1, e, m2, heq, hgood, hbad⟩ := ih htl
      refine ⟨a :: m1, e, m2, by rw [heq, List.cons_append], ?_, hbad⟩
      intro x hx
      rcases List.mem_cons.mp hx with rfl | hx'
      · exact ha
      · exact hgood x hx'

theorem dget_eq_none_of_not_mem {α : Type} (d : PDict α) (k : Nat)
    (h : ∀ x ∈ d, x.1 ≠ k) : dget d k = none := by
  induction d with
  | nil => rfl
  | cons a tl ih =>
    rw [dget_cons_ne a tl k (h a (by simp))]
    exact ih (fun x hx => h x (List.mem_cons_of_mem _ hx))

theorem dget_append_of_not_mem {α : Type} (m1 m2 : PDict α) (k : Nat)
    (h : ∀ x ∈ m1, x.1 ≠ k) : dget (m1 ++ m2) k = dget m2 k := by
  induction m1 with
  | nil => rw [List.nil_append]
  | cons a tl ih =>
    rw [List.cons_append, dget_cons_ne a _ k (h a (by simp))]
    exact ih (fun x hx => h x (List.mem_cons_of_mem _ hx))

/-- C9: for every well-formed metadata mapping m (distinct indices in
[0, 31], values the writers accept), write_metadata succeeds, and
reading the produced bytes back yields a dict equal to m (read stops
exactly at the appended 0x7f terminator) if and only if no entry's
header byte meta_type << 5 | index & 0x1f equals 0x7f — the reader
takes such a header for the stream terminator, cutting the dict short,
so, in particular, a float (type 3) entry at index 31 does not
round-trip. -/
theorem c9_metadata_roundtrip (m : List (Nat × MetaValue)) (hwf : MetaWF m) :
    ∃ bs, write_metadata m = some bs ∧
      ((∃ res rest, read_metadata bs = some (res, rest)
          ∧ ∀ k, dget res k = dget m k)
        ↔ ∀ e ∈ m, metaHeader e ≠ 0x7f) := by
  obtain ⟨hnd, hent⟩ := hwf
  obtain ⟨bsE, hbsE⟩ := write_meta_entries_some m (fun e he => (hent e he).2)
  refine ⟨bsE ++ [0x7f], by rw [write_metadata, hbsE]; rfl, ?_, ?_⟩
  · rintro ⟨res, rest, hread, hequiv⟩
    by_contra hbad
    obtain ⟨m1, e, m2, heq, hgood1, hbad1⟩ := exists_first_bad m hbad
    obtain ⟨i2, v2⟩ := e
    have hmem2 : (i2, v2) ∈ m := by
      rw [heq]
      exact List.mem_append_right _ (List.mem_cons_self _ _)
    obtain ⟨vb2, hvb2⟩ := META_WRITE_some v2 (hent _ hmem2).2
    obtain ⟨rb2, hrb2⟩ := write_meta_entries_some m2 (fun x hx =>
      (hent x (by rw [heq]; exact List.mem_append_right _ (List.mem_cons_of_mem _ hx))).2)
    obtain ⟨b1, hb1⟩ := write_meta_entries_some m1 (fun x hx =>
      (hent x (by rw [heq]; exact List.mem_append_left _ hx)).2)
    have hE2 : write_meta_entries ((i2, v2) :: m2)
        = some ((metaType v2 <<< 5 ||| (i2 &&& 0x1f)) :: vb2 ++ rb2) := by
      rw [write_meta_entries, hvb2, obind_some, hrb2, obind_some]
      rfl
    have happ := write_meta_entries_append m1 ((i2, v2) :: m2) _ hE2 b1 hb1
    rw [← heq, hbsE, Option.some.injEq] at happ
    have hbad1' : metaType v2 <<< 5 ||| (i2 &&& 0x1f) = 0x7f := hbad1
    have hform : bsE ++ [0x7f] = b1 ++ 0x7f :: (vb2 ++ (rb2 ++ [0x7f])) := by
      rw [happ, hbad1']
      simp only [List.append_assoc, List.cons_append]
    have hread1 : read_metadata (bsE ++ [0x7f])
        = some (m1, vb2 ++ (rb2 ++ [0x7f])) := by
      rw [hform]
      exact read_write_meta_entries m1 b1
        (fun x hx => hent x (by rw [heq]; exact List.mem_append_left _ hx))
        hgood1 hb1 _
    rw [hread, Option.some.injEq, Prod.mk.injEq] at hread1
    obtain ⟨hres, hrest⟩ := hread1
    subst hres
    have hkeys : ∀ x ∈ res, x.1 ≠ i2 := by
      intro x hx hcon
      rw [heq, List.map_append, List.map_cons] at hnd
      have hdisj := (List.nodup_append.mp hnd).2.2
      exact hdisj (List.mem_map_of_mem Prod.fst hx)
        (by rw [hcon]; exact List.mem_cons_self _ _)
    have h1 := hequiv i2
    rw [dget_eq_none_of_not_mem res i2 hkeys, heq,
      dget_append_of_not_mem res _ i2 hkeys] at h1
    rw [show dget ((i2, v2) :: m2) i2 = some v2 from dget_cons_eq (i2, v2) m2] at h1
    cases h1
  · intro hgood
    exact ⟨m, [], read_write_meta_entries m bsE hent hgood hbsE [], fun k => rfl⟩

/-! ### Packed position round-trip (C5) -/

theorem beBytes_length (w : Nat) : ∀ v, (beBytes w v).length = w := by
  induction w with
  | zero => intro v; rfl
  | succ w ih =>
    intro v
    rw [beBytes]
    simp [ih]

theorem beVal_append_single (l : List Nat) (b : Nat) :
    beVal (l ++ [b]) = beVal l * 256 + b := by
  rw [beVal, beVal, List.foldl_append]
  rfl

theorem beVal_beBytes (w : Nat) : ∀ v, v < 2 ^ (8 * w) → beVal (beBytes w v) = v := by
  induction w with
  | zero =>
    intro v hv
    have hv0 : v = 0 := by simpa using hv
    subst hv0
    rfl
  | succ w ih =>
    intro v hv
    rw [beBytes, beVal_append_single]
    have h2 : 2 ^ (8 * (w + 1)) = 2 ^ (8 * w) * 256 := by
      rw [show 8 * (w + 1) = 8 * w + 8 from by ring, pow_add]
      norm_num
    rw [shiftRight_8_eq_div, and_255_eq_mod]
    rw [ih (v / 256) (by omega)]
    omega

/-- Python & of a negative int with the 26-bit mask: on -[k+1] it is
Nat.ldiff of the mask by k, which subtracts k from the all-ones mask. -/
theorem ldiff_ones (k : Nat) (hk : k < 2 ^ 26) :
    Nat.ldiff (2 ^ 26 - 1) k = 2 ^ 26 - 1 - k := by
  apply Nat.eq_of_testBit_eq
  intro i
  rw [Nat.testBit_ldiff, Nat.testBit_two_pow_sub_one,
    show 2 ^ 26 - 1 - k = 2 ^ 26 - (k + 1) from by omega,
    Nat.testBit_two_pow_sub_succ hk]

theorem and_bit25_lo (m : Nat) (hm : m < 2 ^ 25) : m &&& 0x2000000 = 0 := by
  apply Nat.eq_of_testBit_eq
  intro i
  rw [Nat.testBit_and]
  by_cases hi : i = 25
  · subst hi
    rw [Nat.testBit_lt_two_pow hm]
    simp
  · rw [show (0x2000000 : Nat) = 2 ^ 25 from by norm_num,
      Nat.testBit_two_pow_of_ne (fun h => hi h.symm)]
    simp

theorem and_bit25_hi (m : Nat) (h1 : 2 ^ 25 ≤ m) (h2 : m < 2 ^ 26) :
    m &&& 0x2000000 ≠ 0 := by
  intro hcon
  have ht : Nat.testBit m 25 = true := by
    rw [Nat.testBit_to_div_mod, show m / 2 ^ 25 = 1 from by omega]
    decide
  have hbit : Nat.testBit (m &&& 0x2000000) 25 = true := by
    rw [Nat.testBit_and, ht, show (0x2000000 : Nat) = 2 ^ 25 from by norm_num,
      Nat.testBit_two_pow_self]
    decide
  rw [hcon] at hbit
  simp at hbit

theorem twentysix_low (m : Nat) (hm : m < 2 ^ 25) :
    twentysix_bit_2_complement m = (m : Int) := by
  rw [twentysix_bit_2_complement, if_neg (by simp [and_bit25_lo m hm])]

theorem twentysix_high (m : Nat) (h1 : 2 ^ 25 ≤ m) (h2 : m < 2 ^ 26) :
    twentysix_bit_2_complement m = (m : Int) - 2 ^ 26 := by
  rw [twentysix_bit_2_complement, if_pos (and_bit25_hi m h1 h2)]

/-- The 26-bit mask on an Int in [-2^25, 2^25) yields the two's-complement
residue, and the reader's sign extension inverts it. -/
theorem land_mask26 (v : Int) (h1 : -2 ^ 25 ≤ v) (h2 : v < 2 ^ 25) :
    ∃ m : Nat, Int.land v 0x3ffffff = Int.ofNat m ∧ m < 2 ^ 26
      ∧ twentysix_bit_2_complement m = v := by
  cases v with
  | ofNat a =>
    have ha : a < 2 ^ 25 := by
      have h2c : (a : Int) < 2 ^ 25 := h2
      omega
    have hmod : a &&& 0x3ffffff = a := by
      rw [show (0x3ffffff : Nat) = 2 ^ 26 - 1 from by norm_num,
        Nat.and_pow_two_sub_one_eq_mod]
      omega
    refine ⟨a, ?_, by omega, ?_⟩
    · show Int.ofNat (a &&& 0x3ffffff) = Int.ofNat a
      rw [hmod]
    · rw [twentysix_low a ha]
      rfl
  | negSucc k =>
    have hk : k < 2 ^ 25 := by
      rw [Int.negSucc_eq] at h1
      omega
    refine ⟨2 ^ 26 - 1 - k, ?_, by omega, ?_⟩
    · show Int.ofNat (Nat.ldiff 0x3ffffff k) = Int.ofNat (2 ^ 26 - 1 - k)
      rw [show (0x3ffffff : Nat) = 2 ^ 26 - 1 from by norm_num,
        ldiff_ones k (by omega)]
    · rw [twentysix_high _ (by omega) (by omega), Int.negSucc_eq]
      omega

/-- C5: for x, z in [-2^25, 2^25) and y in [0, 4096), the writer packs
x into bits 38..63, y into bits 26..37, z into bits 0..25 of one
big-endian ulong ((pos.x & 0x3ffffff) << 38 | pos.y << 26 |
pos.z & 0x3ffffff), and the reader recovers x and z by 26-bit
two's-complement sign extension and y as the middle 12 bits, so
read_position_packed ∘ write_position_packed is the identity. -/
theorem c5_position_packed_roundtrip (pos : Position)
    (hx : -2 ^ 25 ≤ pos.x ∧ pos.x < 2 ^ 25)
    (hy : 0 ≤ pos.y ∧ pos.y < 4096)
    (hz : -2 ^ 25 ≤ pos.z ∧ pos.z < 2 ^ 25) :
    ∃ bs, write_position_packed pos = some bs
      ∧ read_position_packed bs = some (pos, []) := by
  obtain ⟨xm, hxl, hxm, hxv⟩ := land_mask26 pos.x hx.1 hx.2
  obtain ⟨zm, hzl, hzm, hzv⟩ := land_mask26 pos.z hz.1 hz.2
  obtain ⟨ym, hyme⟩ := Int.eq_ofNat_of_zero_le hy.1
  have hym : ym < 4096 := by
    have := hy.2
    rw [hyme] at this
    exact_mod_cast this
  have hx38 : Int.land pos.x 0x3ffffff * 2 ^ 38 = Int.ofNat (xm * 2 ^ 38) := by
    rw [hxl]
    push_cast [Int.ofNat_eq_natCast]
    ring
  have hy26 : pos.y * 2 ^ 26 = Int.ofNat (ym * 2 ^ 26) := by
    rw [hyme]
    push_cast [Int.ofNat_eq_natCast]
    ring
  have hW : (xm * 2 ^ 38 ||| ym * 2 ^ 26) ||| zm
      = xm * 2 ^ 38 + ym * 2 ^ 26 + zm := by
    have ha : xm * 2 ^ 38 ||| ym * 2 ^ 26 = xm * 2 ^ 38 + ym * 2 ^ 26 := by
      rw [Nat.mul_comm xm (2 ^ 38), ← Nat.mul_add_lt_is_or (by omega) xm]
    have hb : (xm * 2 ^ 12 + ym) * 2 ^ 26 ||| zm
        = (xm * 2 ^ 12 + ym) * 2 ^ 26 + zm := by
      rw [Nat.mul_comm _ (2 ^ 26), ← Nat.mul_add_lt_is_or hzm]
    rw [ha, show xm * 2 ^ 38 + ym * 2 ^ 26 = (xm * 2 ^ 12 + ym) * 2 ^ 26 from by ring,
      hb]
  have hpack : Int.lor (Int.lor (Int.land pos.x 0x3ffffff * 2 ^ 38)
      (pos.y * 2 ^ 26)) (Int.land pos.z 0x3ffffff)
      = Int.ofNat (xm * 2 ^ 38 + ym * 2 ^ 26 + zm) := by
    rw [hx38, hy26, hzl, ← hW]
    rfl
  have hWlt : xm * 2 ^ 38 + ym * 2 ^ 26 + zm < 2 ^ 64 := by omega
  have hWlt2 : ((xm * 2 ^ 38 + ym * 2 ^ 26 + zm : Nat) : Int) < 2 ^ 64 := by
    exact_mod_cast hWlt
  refine ⟨beBytes 8 (xm * 2 ^ 38 + ym * 2 ^ 26 + zm), ?_, ?_⟩
  · rw [write_position_packed, hpack, write_ulong,
      if_pos ⟨Int.natCast_nonneg _, hWlt2⟩]
    rfl
  · have hRU : read_ulong (beBytes 8 (xm * 2 ^ 38 + ym * 2 ^ 26 + zm))
        = some (xm * 2 ^ 38 + ym * 2 ^ 26 + zm, []) := by
      rw [read_ulong, if_pos (by rw [beBytes_length])]
      rw [List.take_of_length_le (by rw [beBytes_length]),
        List.drop_eq_nil_of_le (by rw [beBytes_length])]
      rw [beVal_beBytes 8 _ (by omega)]
    rw [read_position_packed, hRU]
    dsimp only
    rw [show (xm * 2 ^ 38 + ym * 2 ^ 26 + zm) >>> 38 = xm from by
        rw [Nat.shiftRight_eq_div_pow]; omega]
    rw [show ((xm * 2 ^ 38 + ym * 2 ^ 26 + zm) >>> 26) &&& 0xfff = ym from by
        rw [Nat.shiftRight_eq_div_pow,
          show (0xfff : Nat) = 2 ^ 12 - 1 from by norm_num,
          Nat.and_pow_two_sub_one_eq_mod]
        omega]
    rw [show (xm * 2 ^ 38 + ym * 2 ^ 26 + zm) &&& 0x3ffffff = zm from by
        rw [show (0x3ffffff : Nat) = 2 ^ 26 - 1 from by norm_num,
          Nat.and_pow_two_sub_one_eq_mod]
        omega]
    rw [hxv, hzv, ← hyme]

/-- Witness for C5 at Position(1, 2, -3). -/
theorem c5_position_packed_roundtrip_witness :
    ∃ bs, write_position_packed ⟨1, 2, -3⟩ = some bs
      ∧ read_position_packed bs = some (⟨1, 2, -3⟩, []) :=
  c5_position_packed_roundtrip ⟨1, 2, -3⟩ (by norm_num) (by norm_num) (by norm_num)

/-- Witness for C9 at a concrete mapping: a float (type 3) entry at
index 31, whose header byte is exactly 0x7f. -/
theorem c9_metadata_roundtrip_witness :
    ∃ bs, write_metadata [(31, MetaValue.vfloat [0, 0, 0, 0])] = some bs ∧
      ((∃ res rest, read_metadata bs = some (res, rest)
          ∧ ∀ k, dget res k = dget [(31, MetaValue.vfloat [0, 0, 0, 0])] k)
        ↔ ∀ e ∈ [(31, MetaValue.vfloat [0, 0, 0, 0])], metaHeader e ≠ 0x7f) :=
  c9_metadata_roundtrip [(31, MetaValue.vfloat [0, 0, 0, 0])] ⟨by decide, by decide⟩

end Fastmc
